import Mathlib

/-!
Verification of `scripts/quotes.py` (folder-consistency engine for sharded
quote collections).

The shallow embedding models:
  * strings as `List Char` (`Str`), records (one quote) as `List Str`;
  * JSON payloads as `JVal` (bare list of records, or object with the
    `total` / `chunk_size` / `items` fields the code reads and writes);
  * the folder as a finite association list of file name to payload, plus the
    files of the transient `new` staging subdirectory and two flags
    (folder existence, staging-directory existence); `Path.iterdir` yields
    only direct children, which the model mirrors: staged files are *not*
    part of `files`;
  * each operation of the `Folder` class as a function in a state-and-error
    monad `M` which also accumulates the warnings emitted by `warnings.warn`
    (Python warnings are an ambient channel; the model logs them in emission
    order).  I/O exceptions (`ValueError`, `KeyError`, `IndexError`,
    `FileExistsError`) are the error outcomes.

`int(...)` on a shard-name stem is modelled by `pyInt` (optional sign
followed by decimal digits), which covers every name arising in this
development; `str.replace` is modelled by `strReplace` (leftmost,
non-overlapping, replace-all), matching Python for the non-empty patterns
the code uses.  Recursions whose measure is not structural use explicit
fuel so that every definition evaluates by kernel reduction.
-/

namespace Quotes

/-- Strings in the model: lists of characters. -/
abbrev Str := List Char

/-- One quote record: an ordered list of short text fields. -/
abbrev Record := List Str

/-- `MAX_QUOTES_PER_FILE` from the source. -/
def MAX_QUOTES_PER_FILE : Nat := 100

/-! ### `str.replace` and `Folder.fix_item` -/

/-- Non-breaking space `"\xa0"`. -/
def nbsp : Char := ' '

/-- Right single quotation mark `"’"`. -/
def rsquo : Char := '’'

/-- Opening French guillemet `"\xab"`. -/
def laquo : Char := '«'

/-- Closing French guillemet `"\xbb"`. -/
def raquo : Char := '»'

/-- Apostrophe `"'"`. -/
def apos : Char := Char.ofNat 39

/-- Plain double quote `'"'`. -/
def quot : Char := '"'

/-- Does `pat` start the string `s`?  (Prefix test used by the
`str.replace` scan.) -/
def isPre : Str → Str → Bool
  | [], _ => true
  | _ :: _, [] => false
  | p :: ps, c :: cs => if p = c then isPre ps cs else false

/-- Fuelled scan of Python `str.replace(pat, rep)`: leftmost,
non-overlapping, replaces all occurrences.  The fuel only serves
termination; `strReplace` supplies enough of it. -/
def strReplaceAux (pat rep : Str) : Nat → Str → Str
  | _, [] => []
  | 0, s => s
  | f + 1, c :: rest =>
    if isPre pat (c :: rest) = true ∧ pat ≠ [] then
      rep ++ strReplaceAux pat rep f ((c :: rest).drop pat.length)
    else
      c :: strReplaceAux pat rep f rest

/-- Python `s.replace(pat, rep)` for a non-empty pattern `pat`. -/
def strReplace (pat rep s : Str) : Str :=
  strReplaceAux pat rep (s.length + 1) s

/-- `Folder.fix_item`: chain of the four `replace` calls of the source
(non-breaking space, right single quote, opening guillemet + space,
space + closing guillemet). -/
def fix_item (s : Str) : Str :=
  strReplace [' ', raquo] [quot]
    (strReplace [laquo, ' '] [quot]
      (strReplace [rsquo] [apos]
        (strReplace [nbsp] [' '] s)))

/-- `Folder.fix_quotes`: apply `fix_item` to every field of every record. -/
def fix_quotes (quotes : List Record) : List Record :=
  quotes.map (fun q => q.map fix_item)

/-- Does the two-character pattern `a b` occur (adjacent) in `s`? -/
def occursPair (a b : Char) : Str → Bool
  | c :: d :: rest => (decide (c = a) && decide (d = b)) || occursPair a b (d :: rest)
  | _ => false

theorem occursPair_cons_false {a b c : Char} {s : Str}
    (h : occursPair a b (c :: s) = false) : occursPair a b s = false := by
  cases s with
  | nil => rfl
  | cons d t =>
    simp only [occursPair, Bool.or_eq_false_iff] at h
    exact h.2

theorem occursPair_cons_head {a b c d : Char} {s : Str}
    (h : occursPair a b (c :: d :: s) = false) : ¬(c = a ∧ d = b) := by
  simp only [occursPair, Bool.or_eq_false_iff, Bool.and_eq_false_iff] at h
  rcases h.1 with h1 | h1
  · exact fun hc => absurd (decide_eq_true hc.1) (by simp [h1])
  · exact fun hc => absurd (decide_eq_true hc.2) (by simp [h1])

/-! Lemmas about `strReplaceAux` for the idempotence proof.  All are stated
with a fuel-sufficiency hypothesis `s.length < f`. -/

theorem strReplaceAux_single (a b : Char) :
    ∀ (f : Nat) (s : Str), s.length < f →
      strReplaceAux [a] [b] f s = s.map (fun c => if c = a then b else c) := by
  intro f
  induction f with
  | zero => intro s h; omega
  | succ f ih =>
    intro s h
    cases s with
    | nil => rfl
    | cons c rest =>
      simp only [List.length_cons] at h
      by_cases hca : a = c
      · have hpre : isPre [a] (c :: rest) = true ∧ ([a] : Str) ≠ [] := by
          constructor
          · simp [isPre, hca]
          · simp
        simp only [strReplaceAux, if_pos hpre, List.length_cons]
        subst hca
        simp only [List.length_cons, List.length_nil, List.drop_succ_cons,
          List.drop_zero, List.map_cons, List.singleton_append]
        rw [ih rest (by omega)]
        simp
      · have hpre : ¬(isPre [a] (c :: rest) = true ∧ ([a] : Str) ≠ []) := by
          intro hc
          have := hc.1
          simp only [isPre] at this
          split at this
          · exact hca (by assumption)
          · exact absurd this (by simp)
        simp only [strReplaceAux, if_neg hpre, List.map_cons]
        have hne : ¬(c = a) := fun hh => hca hh.symm
        rw [if_neg hne, ih rest (by omega)]

/-- Replacing a single character that does not occur is the identity. -/
theorem strReplace_single_not_mem {a b : Char} {s : Str} (h : a ∉ s) :
    strReplace [a] [b] s = s := by
  unfold strReplace
  rw [strReplaceAux_single a b (s.length + 1) s (by omega)]
  apply List.map_congr_left ?_ |>.trans (List.map_id s)
  intro c hc
  have : ¬(c = a) := fun hh => h (hh ▸ hc)
  simp [this]

/-- After replacing character `a` by `b ≠ a`, `a` no longer occurs. -/
theorem strReplace_single_removes {a b : Char} (hba : b ≠ a) (s : Str) :
    a ∉ strReplace [a] [b] s := by
  unfold strReplace
  rw [strReplaceAux_single a b (s.length + 1) s (by omega)]
  intro hmem
  rcases List.mem_map.mp hmem with ⟨c, _, hc⟩
  by_cases hca : c = a
  · rw [if_pos hca] at hc; exact hba hc
  · rw [if_neg hca] at hc; exact hca hc

/-- Characters of the output come from the input or the replacement. -/
theorem strReplaceAux_mem (pat rep : Str) :
    ∀ (f : Nat) (s : Str) (c : Char), c ∈ strReplaceAux pat rep f s →
      c ∈ s ∨ c ∈ rep := by
  intro f
  induction f with
  | zero =>
    intro s c hc
    cases s with
    | nil => simp [strReplaceAux] at hc
    | cons d t => exact Or.inl hc
  | succ f ih =>
    intro s c hc
    cases s with
    | nil => simp [strReplaceAux] at hc
    | cons d t =>
      by_cases hpre : isPre pat (d :: t) = true ∧ pat ≠ []
      · rw [strReplaceAux, if_pos hpre] at hc
        rcases List.mem_append.mp hc with h | h
        · exact Or.inr h
        · rcases ih _ _ h with h2 | h2
          · exact Or.inl (List.mem_of_mem_drop h2)
          · exact Or.inr h2
      · rw [strReplaceAux, if_neg hpre] at hc
        rcases List.mem_cons.mp hc with h | h
        · exact Or.inl (h ▸ List.mem_cons_self d t)
        · rcases ih _ _ h with h2 | h2
          · exact Or.inl (List.mem_cons_of_mem _ h2)
          · exact Or.inr h2

theorem strReplace_mem {pat rep s : Str} {c : Char}
    (h : c ∈ strReplace pat rep s) : c ∈ s ∨ c ∈ rep :=
  strReplaceAux_mem pat rep (s.length + 1) s c h

/-- `isPre` for a two-character pattern. -/
theorem isPre_pair {x y c : Char} {rest : Str} :
    isPre [x, y] (c :: rest) = true ↔ x = c ∧ ∃ t, rest = y :: t := by
  constructor
  · intro h
    cases rest with
    | nil =>
      exfalso
      simp only [isPre] at h
      split at h <;> simp_all [isPre]
    | cons d t =>
      simp only [isPre] at h
      split at h
      · rename_i hxc
        split at h
        · rename_i hyd
          exact ⟨hxc, t, by rw [hyd]⟩
        · simp at h
      · simp at h
  · rintro ⟨hxc, t, ht⟩
    subst ht
    simp [isPre, hxc]

/-- The head of the replace-scan output is the replacement head or the
input head. -/
theorem strReplaceAux_head (x y r : Char) (f : Nat) (s : Str) :
    (strReplaceAux [x, y] [r] f s).head? = none ∨
    (strReplaceAux [x, y] [r] f s).head? = some r ∨
    (strReplaceAux [x, y] [r] f s).head? = s.head? := by
  cases f with
  | zero =>
    cases s with
    | nil => left; rfl
    | cons c t => right; right; rfl
  | succ f =>
    cases s with
    | nil => left; rfl
    | cons c t =>
      by_cases hpre : isPre [x, y] (c :: t) = true ∧ ([x, y] : Str) ≠ []
      · rw [strReplaceAux, if_pos hpre]
        right; left; rfl
      · rw [strReplaceAux, if_neg hpre]
        right; right; rfl

/-- Self-pattern elimination: after replacing the two-character pattern
`x y` by a single `r ∉ {x, y}`, the pattern no longer occurs. -/
theorem strReplaceAux_pair_removes {x y r : Char} (hrx : r ≠ x) (hry : r ≠ y) :
    ∀ (f : Nat) (s : Str), s.length < f →
      occursPair x y (strReplaceAux [x, y] [r] f s) = false := by
  intro f
  induction f with
  | zero => intro s h; omega
  | succ f ih =>
    intro s h
    cases s with
    | nil => rfl
    | cons c rest =>
      simp only [List.length_cons] at h
      by_cases hpre : isPre [x, y] (c :: rest) = true ∧ ([x, y] : Str) ≠ []
      · rw [strReplaceAux, if_pos hpre]
        rcases isPre_pair.mp hpre.1 with ⟨hxc, t, ht⟩
        subst ht
        simp only [List.length_cons, List.length_nil, List.drop_succ_cons,
          List.drop_zero, List.singleton_append]
        have htail : occursPair x y (strReplaceAux [x, y] [r] f t) = false :=
          ih t (by simp at h; omega)
        cases hT : strReplaceAux [x, y] [r] f t with
        | nil => rfl
        | cons d T =>
          simp only [occursPair, Bool.or_eq_false_iff]
          refine ⟨?_, by rw [← hT]; exact htail⟩
          have : ¬(r = x) := hrx
          simp [this]
      · rw [strReplaceAux, if_neg hpre]
        have htail : occursPair x y (strReplaceAux [x, y] [r] f rest) = false :=
          ih rest (by omega)
        cases hT : strReplaceAux [x, y] [r] f rest with
        | nil => rfl
        | cons d T =>
          simp only [occursPair, Bool.or_eq_false_iff]
          refine ⟨?_, by rw [← hT]; exact htail⟩
          rcases strReplaceAux_head x y r f rest with hh | hh | hh
          · rw [hT] at hh; simp at hh
          · rw [hT] at hh
            simp only [List.head?_cons, Option.some_inj] at hh
            subst hh
            have : ¬(d = y) := hry
            simp [this]
          · rw [hT] at hh
            cases rest with
            | nil => simp [strReplaceAux] at hT
            | cons e t2 =>
              simp only [List.head?_cons, Option.some_inj] at hh
              subst hh
              by_cases hcx : c = x
              · by_cases hdy : d = y
                · exfalso
                  apply hpre
                  refine ⟨isPre_pair.mpr ⟨hcx.symm, t2, by rw [hdy]⟩, by simp⟩
                · simp [hdy]
              · simp [hcx]

/-- Cross-pattern preservation: replacing `x y` by `r` cannot create a new
occurrence of `a b` when `r ∉ {a, b}`. -/
theorem strReplaceAux_pair_preserves {x y r a b : Char}
    (hra : r ≠ a) (hrb : r ≠ b) :
    ∀ (f : Nat) (s : Str), s.length < f →
      occursPair a b s = false →
      occursPair a b (strReplaceAux [x, y] [r] f s) = false := by
  intro f
  induction f with
  | zero => intro s h; omega
  | succ f ih =>
    intro s h hocc
    cases s with
    | nil => rfl
    | cons c rest =>
      simp only [List.length_cons] at h
      by_cases hpre : isPre [x, y] (c :: rest) = true ∧ ([x, y] : Str) ≠ []
      · rw [strReplaceAux, if_pos hpre]
        rcases isPre_pair.mp hpre.1 with ⟨hxc, t, ht⟩
        subst ht
        simp only [List.length_cons, List.length_nil, List.drop_succ_cons,
          List.drop_zero, List.singleton_append]
        have hocct : occursPair a b t = false :=
          occursPair_cons_false (occursPair_cons_false hocc)
        have htail := ih t (by simp at h; omega) hocct
        cases hT : strReplaceAux [x, y] [r] f t with
        | nil => rfl
        | cons d T =>
          simp only [occursPair, Bool.or_eq_false_iff]
          refine ⟨?_, by rw [← hT]; exact htail⟩
          have : ¬(r = a) := hra
          simp [this]
      · rw [strReplaceAux, if_neg hpre]
        have hocct : occursPair a b rest = false := occursPair_cons_false hocc
        have htail := ih rest (by omega) hocct
        cases hT : strReplaceAux [x, y] [r] f rest with
        | nil => rfl
        | cons d T =>
          simp only [occursPair, Bool.or_eq_false_iff]
          refine ⟨?_, by rw [← hT]; exact htail⟩
          rcases strReplaceAux_head x y r f rest with hh | hh | hh
          · rw [hT] at hh; simp at hh
          · rw [hT] at hh
            simp only [List.head?_cons, Option.some_inj] at hh
            subst hh
            have : ¬(d = b) := hrb
            simp [this]
          · rw [hT] at hh
            cases rest with
            | nil => simp [strReplaceAux] at hT
            | cons e t2 =>
              simp only [List.head?_cons, Option.some_inj] at hh
              subst hh
              have := occursPair_cons_head hocc
              by_cases hca : c = a
              · by_cases hdb : d = b
                · exact absurd ⟨hca, hdb⟩ this
                · simp [hdb]
              · simp [hca]

/-- If the two-character pattern does not occur, the replace is the
identity. -/
theorem strReplaceAux_pair_id {x y : Char} (rep : Str) :
    ∀ (f : Nat) (s : Str), s.length < f →
      occursPair x y s = false →
      strReplaceAux [x, y] rep f s = s := by
  intro f
  induction f with
  | zero => intro s h; omega
  | succ f ih =>
    intro s h hocc
    cases s with
    | nil => rfl
    | cons c rest =>
      simp only [List.length_cons] at h
      have hpre : ¬(isPre [x, y] (c :: rest) = true ∧ ([x, y] : Str) ≠ []) := by
        intro hc
        rcases isPre_pair.mp hc.1 with ⟨hxc, t, ht⟩
        subst ht
        exact absurd ⟨hxc.symm, rfl⟩ (occursPair_cons_head hocc)
      rw [strReplaceAux, if_neg hpre,
        ih rest (by omega) (occursPair_cons_false hocc)]

theorem strReplace_pair_removes {x y r : Char} (hrx : r ≠ x) (hry : r ≠ y)
    (s : Str) : occursPair x y (strReplace [x, y] [r] s) = false :=
  strReplaceAux_pair_removes hrx hry (s.length + 1) s (by omega)

theorem strReplace_pair_preserves {x y r a b : Char} (hra : r ≠ a)
    (hrb : r ≠ b) {s : Str} (h : occursPair a b s = false) :
    occursPair a b (strReplace [x, y] [r] s) = false :=
  strReplaceAux_pair_preserves hra hrb (s.length + 1) s (by omega) h

theorem strReplace_pair_id {x y : Char} {rep s : Str}
    (h : occursPair x y s = false) : strReplace [x, y] rep s = s :=
  strReplaceAux_pair_id rep (s.length + 1) s (by omega) h

theorem not_mem_strReplace {c : Char} {pat rep s : Str} (hs : c ∉ s)
    (hr : c ∉ rep) : c ∉ strReplace pat rep s :=
  fun h => (strReplace_mem h).elim hs hr

/-- C9: the text-normalization transform `fix_item` is idempotent: for every
string `s`, `fix_item (fix_item s) = fix_item s`. -/
theorem fix_item_idempotent (s : Str) : fix_item (fix_item s) = fix_item s := by
  have hsp_ne : (' ' : Char) ≠ nbsp := by decide
  have hap_ne : apos ≠ rsquo := by decide
  unfold fix_item
  generalize ht1 : strReplace [nbsp] [' '] s = t1
  generalize ht2 : strReplace [rsquo] [apos] t1 = t2
  generalize ht3 : strReplace [laquo, ' '] [quot] t2 = t3
  generalize ht4 : strReplace [' ', raquo] [quot] t3 = t4
  -- the final string contains no non-breaking space
  have h_nbsp1 : nbsp ∉ t1 := ht1 ▸ strReplace_single_removes hsp_ne s
  have h_nbsp2 : nbsp ∉ t2 := ht2 ▸ not_mem_strReplace h_nbsp1 (by decide)
  have h_nbsp3 : nbsp ∉ t3 := ht3 ▸ not_mem_strReplace h_nbsp2 (by decide)
  have h_nbsp4 : nbsp ∉ t4 := ht4 ▸ not_mem_strReplace h_nbsp3 (by decide)
  -- nor a right single quotation mark
  have h_rsq2 : rsquo ∉ t2 := ht2 ▸ strReplace_single_removes hap_ne t1
  have h_rsq3 : rsquo ∉ t3 := ht3 ▸ not_mem_strReplace h_rsq2 (by decide)
  have h_rsq4 : rsquo ∉ t4 := ht4 ▸ not_mem_strReplace h_rsq3 (by decide)
  -- nor an occurrence of guillemet-space or space-guillemet
  have h_lp3 : occursPair laquo ' ' t3 = false :=
    ht3 ▸ strReplace_pair_removes (by decide) (by decide) t2
  have h_lp4 : occursPair laquo ' ' t4 = false :=
    ht4 ▸ strReplace_pair_preserves (by decide) (by decide) h_lp3
  have h_sp4 : occursPair ' ' raquo t4 = false :=
    ht4 ▸ strReplace_pair_removes (by decide) (by decide) t3
  -- hence every pass of the second application is the identity
  rw [strReplace_single_not_mem h_nbsp4, strReplace_single_not_mem h_rsq4,
    strReplace_pair_id h_lp4, strReplace_pair_id h_sp4]

/-! ### File names and `Folder.get_number`

Shard files are named `<N>.json`.  `natToDigits` renders a natural number
in decimal (the model of Python's f-string `f"{i}.json"`), `pyInt` parses
an optional sign followed by decimal digits (the model of `int(...)` on the
stems that occur here). -/

/-- The decimal digit character for `d < 10`. -/
def digitChar (d : Nat) : Char := Char.ofNat (48 + d)

/-- Fuelled decimal rendering; `natToDigits` supplies sufficient fuel. -/
def natToDigitsAux : Nat → Nat → List Char
  | 0, _ => []
  | f + 1, n =>
    if n < 10 then [digitChar n]
    else natToDigitsAux f (n / 10) ++ [digitChar (n % 10)]

/-- Decimal rendering of a natural number. -/
def natToDigits (n : Nat) : List Char := natToDigitsAux (n + 1) n

/-- Accumulating decimal parse of a digit string. -/
def digitsToNatGo : Nat → List Char → Option Nat
  | acc, [] => some acc
  | acc, c :: rest =>
    if c.isDigit then digitsToNatGo (acc * 10 + (c.toNat - 48)) rest else none

/-- Parse a non-empty all-digit string. -/
def digitsToNat? : List Char → Option Nat
  | [] => none
  | l => digitsToNatGo 0 l

/-- Python `int(...)` on the stem of a file name: optional sign followed by
decimal digits. -/
def pyInt (l : List Char) : Option Int :=
  match l with
  | [] => (digitsToNat? []).map (fun n => (n : Int))
  | c :: rest =>
    if c = '-' then (digitsToNat? rest).map (fun n => -(n : Int))
    else if c = '+' then (digitsToNat? rest).map (fun n => (n : Int))
    else (digitsToNat? (c :: rest)).map (fun n => (n : Int))

/-- The `.json` extension. -/
def jsonExt : Str := ['.', 'j', 's', 'o', 'n']

/-- The name `<n>.json` of a shard file (`f"{n}.json"` in the source). -/
def numToName (n : Nat) : Str := natToDigits n ++ jsonExt

/-- The header file name `0.json`. -/
def zeroJson : Str := numToName 0

/-- The name of the staging subdirectory `new`. -/
def newName : Str := ['n', 'e', 'w']

/-- Exceptions raised by the engine.  (A `TypeError` for a payload that is
neither object nor array cannot arise in the model, whose payloads always
have one of the two shapes.) -/
inductive Err where
  | valueError
  | keyError
  | indexError
  | fileExistsError
deriving DecidableEq, Repr

/-- `Folder.get_number`: number in a file name.  All model files are direct
children of the folder, so the path-component check of the source always
passes. -/
def get_number (name : Str) (zero_ok : Bool) : Except Err Int :=
  if name.drop (name.length - 5) = jsonExt then
    match pyInt (name.take (name.length - 5)) with
    | none => .error .valueError
    | some n =>
      if zero_ok = true ∧ n = 0 then .ok n
      else if n ≤ 0 then .error .valueError
      else .ok n
  else .error .valueError

/-- `Folder.get_number_safe`: the number, or `-1` on any error. -/
def get_number_safe (name : Str) : Int :=
  match get_number name false with
  | .ok n => n
  | .error _ => -1

/-- `Folder.is_valid_file_name`. -/
def is_valid_file_name (name : Str) : Bool :=
  match get_number name false with
  | .ok _ => true
  | .error _ => false

/-! ### Payloads, folder state and the operation monad -/

/-- The object form of a payload: the three fields the engine reads or
writes (`total`, `chunk_size`, `items`). -/
structure HDict where
  total : Option Int
  chunk_size : Option Int
  items : Option (List Record)
deriving DecidableEq, Repr

/-- A JSON payload on disk: bare array of records, or object. -/
inductive JVal where
  | list : List Record → JVal
  | dict : HDict → JVal
deriving DecidableEq, Repr

/-- The empty object `{}` (content of a missing file after
`json.loads` failure handling). -/
def emptyDict : HDict := ⟨none, none, none⟩

/-- Folder state: direct children of the folder (`files`), files inside the
staging subdirectory `new` (`newFiles`, in creation order — the model's
resolution of `iterdir` order), whether the staging directory exists, and
whether the folder itself exists. -/
structure FS where
  pathExists : Bool
  files : List (Str × JVal)
  newFiles : List (Str × JVal)
  hasNewDir : Bool
deriving DecidableEq, Repr

/-- One warning per `warnings.warn` call site of the source. -/
inductive Warn where
  | invalidFileName : Str → Warn
  | noDictStructure : Warn
  | totalMismatch : Int → Nat → Warn
  | itemsInHeader : Warn
  | dictStructure : Str → Warn
  | noItemsSection : Str → Warn
  | badCount : Nat → Warn
  | nonAsciiItem : Str → Warn
deriving DecidableEq, Repr

/-- Full state: folder plus the ambient warning log (Python's `warnings`
channel), in emission order. -/
structure St where
  fs : FS
  log : List Warn
deriving DecidableEq, Repr

/-- Operation monad: state plus exceptions.  The state is returned even on
an error (an exception does not roll back completed file writes). -/
def M (α : Type) : Type := St → Except Err α × St

instance : Monad M where
  pure a := fun s => (.ok a, s)
  bind m f := fun s =>
    match m s with
    | (.ok a, s1) => f a s1
    | (.error e, s1) => (.error e, s1)

def M.throw {α : Type} (e : Err) : M α := fun s => (.error e, s)

def M.warn (w : Warn) : M Unit := fun s => (.ok (), ⟨s.fs, s.log ++ [w]⟩)

def M.getFS : M FS := fun s => (.ok s.fs, s)

def M.modFS (f : FS → FS) : M Unit := fun s => (.ok (), ⟨f s.fs, s.log⟩)

@[simp] theorem M.pure_apply {α : Type} (a : α) (s : St) :
    (pure a : M α) s = (.ok a, s) := rfl

@[simp] theorem M.bind_apply {α β : Type} (m : M α) (f : α → M β) (s : St) :
    (m >>= f) s =
      match m s with
      | (.ok a, s1) => f a s1
      | (.error e, s1) => (.error e, s1) := rfl

@[simp] theorem M.throw_apply {α : Type} (e : Err) (s : St) :
    (M.throw e : M α) s = (.error e, s) := rfl

@[simp] theorem M.warn_apply (w : Warn) (s : St) :
    M.warn w s = (.ok (), ⟨s.fs, s.log ++ [w]⟩) := rfl

@[simp] theorem M.getFS_apply (s : St) : M.getFS s = (.ok s.fs, s) := rfl

@[simp] theorem M.modFS_apply (f : FS → FS) (s : St) :
    M.modFS f s = (.ok (), ⟨f s.fs, s.log⟩) := rfl

theorem M.bind_ok {α β : Type} {m : M α} {f : α → M β} {s s' : St} {a : α}
    (h : m s = (.ok a, s')) : (m >>= f) s = f a s' := by
  rw [M.bind_apply, h]

theorem M.bind_err {α β : Type} {m : M α} {f : α → M β} {s s' : St} {e : Err}
    (h : m s = (.error e, s')) : (m >>= f) s = (.error e, s') := by
  rw [M.bind_apply, h]

/-! ### Association-list primitives for a directory -/

/-- Content of file `n`, if present. -/
def lookupF : List (Str × JVal) → Str → Option JVal
  | [], _ => none
  | p :: rest, n => if p.1 = n then some p.2 else lookupF rest n

/-- Write file `n` (replace in place, or create at the end). -/
def setF : List (Str × JVal) → Str → JVal → List (Str × JVal)
  | [], n, v => [(n, v)]
  | p :: rest, n, v => if p.1 = n then (n, v) :: rest else p :: setF rest n v

/-- Delete file `n` (first occurrence). -/
def eraseF : List (Str × JVal) → Str → List (Str × JVal)
  | [], _ => []
  | p :: rest, n => if p.1 = n then rest else p :: eraseF rest n

/-! ### `Folder.open_file` and `Folder.get_items`

`open_file(file, datatype, save)` reads the JSON payload (a missing file
yields `{}`), optionally coerces it (`dict`: wrap a bare list under
`items`; `list`: take the `items` field, default `[]`), and on `save=True`
writes the payload back on exit.  The model splits this into a read
(`readFile` / coercions `asDict`, `asList`) and an explicit write
(`writeFile`). -/

/-- Raw payload of file `n`; a missing file reads as the empty object. -/
def readFile (n : Str) : M JVal := do
  let fs ← M.getFS
  pure ((lookupF fs.files n).getD (.dict emptyDict))

/-- `datatype=dict` coercion: wrap a bare list under `items`. -/
def asDict : JVal → HDict
  | .dict d => d
  | .list L => ⟨none, none, some L⟩

/-- `datatype=list` coercion: take `items` from an object, default `[]`. -/
def asList : JVal → List Record
  | .list L => L
  | .dict d => d.items.getD []

/-- `Folder.get_items`: the record list of a payload. -/
def get_items : JVal → List Record
  | .dict d => d.items.getD []
  | .list L => L

/-- Open file `n` with `datatype=dict`. -/
def openDict (n : Str) : M HDict := do
  let v ← readFile n
  pure (asDict v)

/-- Open file `n` with `datatype=list`. -/
def openList (n : Str) : M (List Record) := do
  let v ← readFile n
  pure (asList v)

/-- Save a payload to file `n`. -/
def writeFile (n : Str) (v : JVal) : M Unit :=
  M.modFS (fun fs => { fs with files := setF fs.files n v })

/-- Raw payload of staged file `new/<n>`, `{}` if absent. -/
def readNewDict (n : Str) : M HDict := do
  let fs ← M.getFS
  pure (asDict ((lookupF fs.newFiles n).getD (.dict emptyDict)))

/-- Save a payload to staged file `new/<n>`. -/
def writeNew (n : Str) (v : JVal) : M Unit :=
  M.modFS (fun fs => { fs with newFiles := setF fs.newFiles n v })

/-- `Path.unlink` of a direct child. -/
def unlinkFile (n : Str) : M Unit :=
  M.modFS (fun fs => { fs with files := eraseF fs.files n })

/-! ### `Folder.get_files` (enumeration) -/

/-- Sort key of `sorted(self.path.iterdir(), key=self.get_number_safe)`. -/
def keyOf (n : Str) : Int := get_number_safe n

/-- Stable insertion into a key-sorted list (ties keep original order,
as Python's stable `sorted`). -/
def insSorted (x : Str) : List Str → List Str
  | [] => [x]
  | y :: ys => if keyOf x ≤ keyOf y then x :: y :: ys else y :: insSorted x ys

/-- Stable sort by `get_number_safe`. -/
def sortNames (l : List Str) : List Str := l.foldr insSorted []

/-- The body of the `get_files` loop.  A directory entry that resolves into
the staging directory — for direct children, exactly a file named `new` —
is deleted and skipped; a header-numbered name is skipped silently; a valid
shard name is kept; otherwise `get_number(item, zero_ok=True)` runs
unguarded, so its `ValueError` propagates (the warning branch of the
source is unreachable, see `get_number_ok_nonzero_valid`). -/
def enumGo : List Str → M (List Str)
  | [] => pure []
  | n :: rest =>
    if n = newName then do
      unlinkFile n
      enumGo rest
    else if is_valid_file_name n = true then do
      let r ← enumGo rest
      pure (n :: r)
    else
      match get_number n true with
      | .ok k =>
        if k = 0 then enumGo rest
        else do
          M.warn (.invalidFileName n)
          let r ← enumGo rest
          pure (n :: r)
      | .error e => M.throw e

/-- `Folder.get_files`.  The staging directory itself also appears in
`iterdir` but fails the `is_file` test and has no other effect, so the
model enumerates only the regular files. -/
def get_files : M (List Str) := do
  let fs ← M.getFS
  enumGo (sortNames (fs.files.map Prod.fst))

/-! ### `Folder.get_total` (aggregation) -/

def sumLens : List Str → M Nat
  | [] => pure 0
  | f :: rest => do
      let data ← openList f
      let r ← sumLens rest
      pure ((get_items (.list data)).length + r)

/-- The argument handling `files = files or self.get_files()`: an *empty*
argument list is falsy, so enumeration runs again. -/
def get_total_files (files? : Option (List Str)) : M (List Str) :=
  match files? with
  | some fl => if fl = [] then get_files else pure fl
  | none => get_files

/-- `Folder.get_total`. -/
def get_total (files? : Option (List Str)) : M Nat := do
  let files0 ← get_total_files files?
  let d ← openDict zeroJson
  sumLens (if d.items.isSome then zeroJson :: files0 else files0)

/-! ### `Folder.check` (validation) -/

/-- Per-item scan of `check_file`: warn on fields `fix_item` would change. -/
def checkQuote : Record → M Unit
  | [] => pure ()
  | it :: rest => do
      (if fix_item it ≠ it then M.warn (.nonAsciiItem it) else pure ())
      checkQuote rest

def checkItems : List Record → M Unit
  | [] => pure ()
  | q :: rest => do
      checkQuote q
      checkItems rest

/-- The payload normalization at the top of `check_file` (lines 197-203). -/
def normalizeShard (file : Str) (raw : JVal) : M (List Record) :=
  match raw with
  | .dict d => do
      M.warn (.dictStructure file)
      (if d.items.isNone then M.warn (.noItemsSection file) else pure ())
      pure (d.items.getD [])
  | .list L => pure L

/-- The per-shard size check of `check_file` (lines 205-210). -/
def checkCount (n : Nat) (last : Bool) : M Unit :=
  if n > MAX_QUOTES_PER_FILE ∨ (last = false ∧ n < MAX_QUOTES_PER_FILE) then
    M.warn (.badCount n)
  else pure ()

/-- `Folder.check_file`. -/
def check_file (file : Str) (last : Bool) : M Unit := do
  let raw ← readFile file
  let data ← normalizeShard file raw
  checkCount (get_items (.list data)).length last
  checkItems (get_items (.list data))

/-- The `enumerate(files, start=-len(files))` loop: `last` iff the index
reaches `-1`, i.e. the final element. -/
def checkFiles : List Str → M Unit
  | [] => pure ()
  | [f] => check_file f true
  | f :: g :: rest => do
      check_file f false
      checkFiles (g :: rest)

/-- The header normalization of `check` (lines 179-183). -/
def normalizeHeader (raw : JVal) : M HDict :=
  match raw with
  | .list L => do
      M.warn .noDictStructure
      pure (HDict.mk none none (some L))
  | .dict d => pure d

/-- The total comparison of `check` (lines 185-186).  The warning text
evaluates `data['total']`, which raises `KeyError` when the header has no
`total` key. -/
def checkTotal (stored : Option Int) (total : Nat) : M Unit :=
  if stored.getD 0 ≠ (total : Int) then
    match stored with
    | none => M.throw .keyError
    | some t => M.warn (.totalMismatch t total)
  else pure ()

/-- The items check of `check` (lines 188-189). -/
def checkItemsFlag (items : Option (List Record)) : M Unit :=
  if items.isSome then M.warn .itemsInHeader else pure ()

/-- `Folder.check`. -/
def check : M Unit := do
  let fs ← M.getFS
  if fs.pathExists = false then pure ()
  else do
    let files ← get_files
    let total ← get_total (some files)
    let raw ← readFile zeroJson
    let data ← normalizeHeader raw
    checkTotal data.total total
    checkItemsFlag data.items
    checkFiles files

/-! ### `Folder.fix` (rewrite) -/

/-- `new_path.mkdir(parents=True, exist_ok=True)`: creates the folder and
the staging directory; raises `FileExistsError` when a regular file named
`new` occupies the staging path. -/
def mkdirNew : M Unit := do
  let fs ← M.getFS
  if (lookupF fs.files newName).isSome then M.throw .fileExistsError
  else M.modFS (fun f => { f with pathExists := true, hasNewDir := true })

/-- `fill_file`: when the stack is non-empty and overfull (or `end` is
set), peel `MAX_QUOTES_PER_FILE` records into the next staged shard.  The
`open_file(..., save=True)` of the source reads any stale staged payload
and discards it (`data[:] = ...` replaces the whole list). -/
def fill_file (stack : List Record) (idx : Nat) (endFlag : Bool) :
    M (List Record × Nat × Bool) :=
  if stack ≠ [] ∧ (endFlag = true ∨ stack.length > MAX_QUOTES_PER_FILE) then do
    writeNew (numToName idx) (.list (stack.take MAX_QUOTES_PER_FILE))
    pure (stack.drop MAX_QUOTES_PER_FILE, idx + 1, true)
  else pure (stack, idx, false)

/-- The drain loop of `fix`: load each file's records onto the stack,
opportunistically flush one full chunk, delete the original file. -/
def drainGo : List Str → List Record → Nat → M (List Record × Nat)
  | [], stack, idx => pure (stack, idx)
  | f :: rest, stack, idx => do
      let data ← openList f
      let r ← fill_file (stack ++ get_items (.list data)) idx false
      unlinkFile f
      drainGo rest r.1 r.2.1

/-- Fuelled form of `while fill_file(): pass` (each iteration shortens the
stack by `MAX_QUOTES_PER_FILE`, so the supplied fuel is ample). -/
def fillLoopAux : Nat → List Record → Nat → M (List Record × Nat)
  | 0, stack, idx => pure (stack, idx)
  | fuel + 1, stack, idx =>
    if stack ≠ [] ∧ stack.length > MAX_QUOTES_PER_FILE then do
      writeNew (numToName idx) (.list (stack.take MAX_QUOTES_PER_FILE))
      fillLoopAux fuel (stack.drop MAX_QUOTES_PER_FILE) (idx + 1)
    else pure (stack, idx)

def fillLoop (stack : List Record) (idx : Nat) : M (List Record × Nat) :=
  fillLoopAux (stack.length + 1) stack idx

/-- Move every staged file up into the folder (in staging-creation order),
then remove the emptied staging directory. -/
def renameAll : M Unit :=
  M.modFS (fun f => { f with
    files := f.newFiles.foldl (fun acc p => setF acc p.1 p.2) f.files,
    newFiles := [],
    hasNewDir := false })

/-- `Folder.fix`. -/
def fix : M Unit := do
  mkdirNew
  let files ← get_files
  let total ← get_total (some files)
  -- rewrite the header in place (`open_file(index_file, dict, save=True)`),
  -- prepending it to the processing list when it holds inline items
  let d ← openDict zeroJson
  writeFile zeroJson (.dict d)
  let r ← drainGo (if d.items.isSome then zeroJson :: files else files) [] 1
  -- write the staged header with the total and the chunk size (fields of a
  -- stale staged header, items included, are kept)
  let h ← readNewDict zeroJson
  writeNew zeroJson
    (.dict { h with total := some (total : Int),
                    chunk_size := some (MAX_QUOTES_PER_FILE : Int) })
  let r2 ← fillLoop r.1 r.2
  let _ ← fill_file r2.1 r2.2 true
  renameAll

/-! ### `Folder.add` (append) -/

/-- `warnings.catch_warnings(action="ignore")`: run `m` with the warning
channel silenced; exceptions still propagate. -/
def suppressWarns {α : Type} (m : M α) : M α := fun st =>
  match m ⟨st.fs, []⟩ with
  | (r, st2) => (r, ⟨st2.fs, st.log⟩)

/-- `Folder.add`. -/
def add (quote : Record) : M Unit := do
  let files ← get_files
  match files.getLast? with
  | none => M.throw .indexError
  | some file => do
      let data ← openList file
      let target ← (if data.length ≥ MAX_QUOTES_PER_FILE then
          match get_number file false with
          | .ok n => pure (numToName (n + 1).toNat)
          | .error e => M.throw e
        else pure file)
      -- the first `with` block exits here, saving the (normalized) list
      -- back to the file it opened
      writeFile file (.list data)
      let d2 ← openList target
      writeFile target (.list (d2 ++ [quote]))
      suppressWarns (do
        check
        fix)

/-! ### Observation: the record sequence of a folder

The records of the folder read in ascending shard-index order, the header
file's inline items (index 0) first — exactly the collection order of
`fix`.  Pure observation: the value is used for specification only. -/

def recordsList : List Str → M (List Record)
  | [] => pure []
  | f :: rest => do
      let data ← openList f
      let r ← recordsList rest
      pure (get_items (.list data) ++ r)

def recordsView : M (List Record) := do
  let files ← get_files
  let d ← openDict zeroJson
  recordsList (if d.items.isSome then zeroJson :: files else files)

/-! ### Concrete folders used as inputs of the counterexamples -/

/-- Folder with no header and a single one-record shard `1.json`. -/
def missingTotalSt : St :=
  ⟨⟨true, [(numToName 1, .list [[['a']]])], [], false⟩, []⟩

/-- Folder containing only a header file (no data shards). -/
def headerOnlySt : St :=
  ⟨⟨true, [(zeroJson, .dict ⟨some 0, none, none⟩)], [], false⟩, []⟩

/-- Folder containing a file with an unparseable name `foo.txt`. -/
def strayNameSt : St :=
  ⟨⟨true, [(['f', 'o', 'o', '.', 't', 'x', 't'], .list [])], [], false⟩, []⟩

/-- Folder whose staging directory holds a stale staged shard `new/1.json`. -/
def stagedFileSt : St :=
  ⟨⟨true, [], [(numToName 1, .list [[['x']]])], true⟩, []⟩

/-- Folder with one shard whose record contains a non-breaking space. -/
def nbspRecordSt : St :=
  ⟨⟨true, [(numToName 1, .list [[[nbsp]]])], [], false⟩, []⟩

/-- Folder with one one-record shard and crash debris `new/7.json`. -/
def debrisSizingSt : St :=
  ⟨⟨true, [(numToName 1, .list [[['a']]])],
    [(numToName 7, .list [[['b']]])], true⟩, []⟩

/-- Folder that is empty apart from crash debris `new/1.json`. -/
def debrisRecordsSt : St :=
  ⟨⟨true, [], [(numToName 1, .list [[['x']]])], true⟩, []⟩

/-- Folder that is empty apart from crash debris `new/1.json` (idempotence
counterexample). -/
def debrisIdemSt : St :=
  ⟨⟨true, [], [(numToName 1, .list [[['x']]])], true⟩, []⟩

/-- C2: the claim says that for an existing folder whose header has no
`total` field the stored total defaults to `0` and a differing recomputed
total yields a mismatch warning with normal return.  On this folder (no
header file, so the header payload reads as `{}`; recomputed total `1`)
`check` instead raises `KeyError`: the mismatch warning text evaluates
`data['total']` although the key is absent.  The code contradicts its own
`data.get("total", 0)` defaulting two lines earlier. -/
theorem check_keyerror_on_missing_total :
    (get_total none missingTotalSt).1 = .ok 1 ∧
    lookupF missingTotalSt.fs.files zeroJson = none ∧
    check missingTotalSt = (.error .keyError, missingTotalSt) :=
  ⟨rfl, rfl, rfl⟩

/-- C3 counterexample: the claim says appending one record with `add` to an
existing folder with no shard files produces a header with `total: 1` and
one data shard.  On a folder containing only a header file, `add` instead
raises `IndexError` — `self.get_files()[-1]` indexes the empty enumeration
(the header is excluded from it) — and the folder is unchanged. -/
theorem add_counterexample :
    add [['q']] headerOnlySt = (.error .indexError, headerOnlySt) := rfl

/-- C3 amended: calling `add` on a folder whose enumeration is empty (no
data-shard files) raises `IndexError`, leaving the folder exactly as the
enumeration left it; nothing is created. -/
theorem add_no_shards_index_error (st : St) (q : Record)
    (h : (get_files st).1 = .ok []) :
    add q st = (.error .indexError, (get_files st).2) := by
  unfold add
  rcases hg : get_files st with ⟨r, s1⟩
  rw [hg] at h
  simp only at h
  subst h
  simp only [M.bind_apply, hg]
  rfl

/-- Witness for `add_no_shards_index_error` at the header-only folder. -/
theorem add_no_shards_index_error_witness :
    (get_files headerOnlySt).1 = .ok [] ∧
    add [['q']] headerOnlySt = (.error .indexError, (get_files headerOnlySt).2) :=
  ⟨rfl, add_no_shards_index_error headerOnlySt [['q']] rfl⟩

/-- C7: the claim says an entry whose name is not a valid shard name and
does not parse as index 0 is warn-and-included without raising.  On a
folder holding `foo.txt`, `get_files` instead raises `ValueError`: the
branch calls `get_number(item, zero_ok=True)` unguarded, and the
format-warning line below it is unreachable
(`get_number_ok_nonzero_valid`).  The dead warning line shows the
tolerant behaviour was the intent. -/
theorem get_files_raises_on_invalid_name :
    get_files strayNameSt = (.error .valueError, strayNameSt) := rfl

/-- C8: the claim says `get_files` deletes files lying inside the staging
subdirectory.  `Path.iterdir` yields only direct children, so a staged
file `new/1.json` is never visited: enumeration returns normally and the
staged file survives untouched (it is merely absent from the returned
list, as everything under `new/` always is). -/
theorem get_files_keeps_staged_file :
    get_files stagedFileSt = (.ok [], stagedFileSt) ∧
    (get_files stagedFileSt).2.fs.newFiles
      = [(numToName 1, .list [[['x']]])] :=
  ⟨rfl, rfl⟩

/-- C1 counterexample: the claim says `check` emits zero warnings on any
folder just rewritten by `fix`.  `fix` does not normalize record text
(`fix_quotes` is never called), so after fixing a folder whose record
contains a non-breaking space, `check` still emits a non-ASCII warning. -/
theorem check_after_fix_warns_counterexample :
    (fix nbspRecordSt).1 = .ok () ∧
    (fix nbspRecordSt).2.log = [] ∧
    ((check (fix nbspRecordSt).2).2).log = [.nonAsciiItem [nbsp]] :=
  ⟨rfl, rfl, rfl⟩

/-- C4 counterexample: the claim says that after `fix` completes every data
shard except the highest-indexed one holds exactly 100 records.  A stale
staged file `new/7.json` left by a crashed rewrite is moved into the
folder by the final rename loop of `fix`, so the folder ends with data
shards `1.json` (1 record) and `7.json`: the non-highest shard `1.json`
holds 1 record, not 100. -/
theorem fix_shard_sizing_counterexample :
    (fix debrisSizingSt).1 = .ok () ∧
    lookupF (fix debrisSizingSt).2.fs.files (numToName 1)
      = some (.list [[['a']]]) ∧
    lookupF (fix debrisSizingSt).2.fs.files (numToName 7)
      = some (.list [[['b']]]) ∧
    is_valid_file_name (numToName 1) = true ∧
    is_valid_file_name (numToName 7) = true ∧
    get_number_safe (numToName 1) < get_number_safe (numToName 7) ∧
    ([[['a']]] : List Record).length ≠ MAX_QUOTES_PER_FILE :=
  ⟨rfl, rfl, rfl, rfl, rfl, by decide, by decide⟩

/-- C5 counterexample: the claim says the concatenated record sequence is
identical before and after `fix` for every folder.  On a folder whose
staging directory holds crash debris `new/1.json`, `fix` moves the staged
record into the folder: the sequence is `[]` before and one record
after. -/
theorem fix_records_counterexample :
    (fix debrisRecordsSt).1 = .ok () ∧
    (recordsView debrisRecordsSt).1 = .ok [] ∧
    (recordsView (fix debrisRecordsSt).2).1 = .ok [[['x']]] ∧
    ([[['x']]] : List Record) ≠ [] :=
  ⟨rfl, rfl, rfl, by decide⟩

/-- C6 counterexample: the claim says running `fix` twice is idempotent on
every folder.  With crash debris `new/1.json` present, the first run
writes a header with `total: 0` (the debris is not counted) and then moves
the debris in; the second run counts it and rewrites the header with
`total: 1`, so the header shard `0.json` differs between the two runs. -/
theorem fix_idempotent_counterexample :
    (fix debrisIdemSt).1 = .ok () ∧
    (fix (fix debrisIdemSt).2).1 = .ok () ∧
    lookupF (fix debrisIdemSt).2.fs.files zeroJson
      = some (.dict ⟨some 0, some 100, none⟩) ∧
    lookupF (fix (fix debrisIdemSt).2).2.fs.files zeroJson
      = some (.dict ⟨some 1, some 100, none⟩) ∧
    (HDict.mk (some 0) (some 100) none) ≠ (HDict.mk (some 1) (some 100) none) :=
  ⟨rfl, rfl, rfl, rfl, by decide⟩

/-! ### Frame property of `check` (claim C10)

The only file mutation reachable from `check` is the `unlink` in
`get_files`, which (for direct children) can hit only a file whose
resolved path lies in the staging directory, i.e. a file literally named
`new`.  Every other file is untouched. -/

theorem lookupF_eraseF (l : List (Str × JVal)) (m n : Str) (h : n ≠ m) :
    lookupF (eraseF l m) n = lookupF l n := by
  induction l with
  | nil => rfl
  | cons p rest ih =>
    simp only [eraseF]
    by_cases hp : p.1 = m
    · rw [if_pos hp]
      simp only [lookupF]
      have hpn : ¬(p.1 = n) := fun hh => h (by rw [← hh]; exact hp)
      rw [if_neg hpn]
    · rw [if_neg hp]
      simp only [lookupF]
      by_cases hn : p.1 = n
      · rw [if_pos hn, if_pos hn]
      · rw [if_neg hn, if_neg hn, ih]

/-- A computation that can change no file other than `new`. -/
def FramePres {α : Type} (m : M α) : Prop :=
  ∀ st n, n ≠ newName →
    lookupF (((m st).2).fs.files) n = lookupF st.fs.files n

theorem framePres_pure {α : Type} (a : α) : FramePres (pure a : M α) :=
  fun _ _ _ => rfl

theorem framePres_throw {α : Type} (e : Err) : FramePres (M.throw e : M α) :=
  fun _ _ _ => rfl

theorem framePres_warn (w : Warn) : FramePres (M.warn w) :=
  fun _ _ _ => rfl

theorem framePres_bind {α β : Type} {m : M α} {f : α → M β}
    (hm : FramePres m) (hf : ∀ a, FramePres (f a)) : FramePres (m >>= f) := by
  intro st n hn
  simp only [M.bind_apply]
  rcases hms : m st with ⟨r, s1⟩
  have h1 : lookupF s1.fs.files n = lookupF st.fs.files n := by
    have := hm st n hn
    rw [hms] at this
    exact this
  cases r with
  | ok a => simpa [h1] using (hf a s1 n hn).trans h1
  | error e => exact h1

theorem framePres_ite {α : Type} {c : Prop} [Decidable c] {m1 m2 : M α}
    (h1 : FramePres m1) (h2 : FramePres m2) :
    FramePres (if c then m1 else m2) := by
  by_cases hc : c
  · rw [if_pos hc]; exact h1
  · rw [if_neg hc]; exact h2

theorem framePres_readFile (n : Str) : FramePres (readFile n) :=
  framePres_bind (fun _ _ _ => rfl) (fun _ => framePres_pure _)

theorem framePres_openDict (n : Str) : FramePres (openDict n) :=
  framePres_bind (framePres_readFile n) (fun _ => framePres_pure _)

theorem framePres_openList (n : Str) : FramePres (openList n) :=
  framePres_bind (framePres_readFile n) (fun _ => framePres_pure _)

theorem framePres_unlink_new : FramePres (unlinkFile newName) := by
  intro st n hn
  exact lookupF_eraseF _ _ _ hn

theorem framePres_enumGo (l : List Str) : FramePres (enumGo l) := by
  induction l with
  | nil => exact framePres_pure _
  | cons x rest ih =>
    show FramePres (enumGo (x :: rest))
    unfold enumGo
    by_cases hx : x = newName
    · rw [if_pos hx]
      subst hx
      exact framePres_bind framePres_unlink_new (fun _ => ih)
    · rw [if_neg hx]
      by_cases hv : is_valid_file_name x = true
      · rw [if_pos hv]
        exact framePres_bind ih (fun _ => framePres_pure _)
      · rw [if_neg hv]
        cases hgx : get_number x true with
        | ok k =>
          exact framePres_ite ih
            (framePres_bind (framePres_warn _)
              (fun _ => framePres_bind ih (fun _ => framePres_pure _)))
        | error e => exact framePres_throw e

theorem framePres_get_files : FramePres get_files :=
  framePres_bind (fun _ _ _ => rfl) (fun _ => framePres_enumGo _)

theorem framePres_sumLens (l : List Str) : FramePres (sumLens l) := by
  induction l with
  | nil => exact framePres_pure _
  | cons f rest ih =>
    exact framePres_bind (framePres_openList f)
      (fun _ => framePres_bind ih (fun _ => framePres_pure _))

theorem framePres_get_total_files (files? : Option (List Str)) :
    FramePres (get_total_files files?) := by
  unfold get_total_files
  cases files? with
  | none => exact framePres_get_files
  | some fl => exact framePres_ite framePres_get_files (framePres_pure _)

theorem framePres_get_total (files? : Option (List Str)) :
    FramePres (get_total files?) := by
  unfold get_total
  exact framePres_bind (framePres_get_total_files files?)
    (fun files0 => framePres_bind (framePres_openDict _)
      (fun d => framePres_sumLens _))

theorem framePres_checkQuote (q : Record) : FramePres (checkQuote q) := by
  induction q with
  | nil => exact framePres_pure _
  | cons it rest ih =>
    exact framePres_bind (framePres_ite (framePres_warn _) (framePres_pure _))
      (fun _ => ih)

theorem framePres_checkItems (l : List Record) : FramePres (checkItems l) := by
  induction l with
  | nil => exact framePres_pure _
  | cons q rest ih =>
    exact framePres_bind (framePres_checkQuote q) (fun _ => ih)

theorem framePres_normalizeShard (f : Str) (raw : JVal) :
    FramePres (normalizeShard f raw) := by
  unfold normalizeShard
  cases raw with
  | dict d =>
    exact framePres_bind (framePres_warn _)
      (fun _ => framePres_bind (framePres_ite (framePres_warn _) (framePres_pure _))
        (fun _ => framePres_pure _))
  | list L => exact framePres_pure _

theorem framePres_checkCount (n : Nat) (last : Bool) :
    FramePres (checkCount n last) :=
  framePres_ite (framePres_warn _) (framePres_pure _)

theorem framePres_check_file (f : Str) (last : Bool) :
    FramePres (check_file f last) := by
  unfold check_file
  exact framePres_bind (framePres_readFile f) (fun raw =>
    framePres_bind (framePres_normalizeShard f raw) (fun data =>
      framePres_bind (framePres_checkCount _ _)
        (fun _ => framePres_checkItems _)))

theorem framePres_checkFiles (l : List Str) : FramePres (checkFiles l) := by
  induction l with
  | nil => exact framePres_pure _
  | cons f rest ih =>
    cases rest with
    | nil => exact framePres_check_file f true
    | cons g t =>
      exact framePres_bind (framePres_check_file f false) (fun _ => ih)

theorem framePres_normalizeHeader (raw : JVal) :
    FramePres (normalizeHeader raw) := by
  unfold normalizeHeader
  cases raw with
  | list L =>
    exact framePres_bind (framePres_warn _) (fun _ => framePres_pure _)
  | dict d => exact framePres_pure _

theorem framePres_checkTotal (stored : Option Int) (total : Nat) :
    FramePres (checkTotal stored total) := by
  unfold checkTotal
  refine framePres_ite ?_ (framePres_pure _)
  cases stored with
  | none => exact framePres_throw _
  | some t => exact framePres_warn _

theorem framePres_check : FramePres check := by
  unfold check
  refine framePres_bind (fun _ _ _ => rfl) (fun fs => ?_)
  refine framePres_ite (framePres_pure _) ?_
  refine framePres_bind framePres_get_files (fun files => ?_)
  refine framePres_bind (framePres_get_total _) (fun total => ?_)
  refine framePres_bind (framePres_readFile _) (fun raw => ?_)
  refine framePres_bind (framePres_normalizeHeader raw) (fun data => ?_)
  refine framePres_bind (framePres_checkTotal _ _) (fun _ => ?_)
  exact framePres_bind (framePres_ite (framePres_warn _) (framePres_pure _))
    (fun _ => framePres_checkFiles files)

/-- C10: `check` never creates, deletes or modifies any file named
`<N>.json` (header included): the content of every file whose name ends in
`.json` is the same before and after a call to `check`, whether it
returned normally, warned, or raised.  (The only unlink reachable from
`check` targets a direct child resolving into the staging path, i.e. a
file literally named `new`, which no `.json` name is.) -/
theorem check_preserves_shard_files (st : St) (n : Str)
    (h : n.drop (n.length - 5) = jsonExt) :
    lookupF ((check st).2).fs.files n = lookupF st.fs.files n := by
  refine framePres_check st n (fun hn => ?_)
  subst hn
  exact absurd h (by decide)

/-- Folder used to witness the frame property of `check`. -/
def frameWitnessSt : St :=
  ⟨⟨true, [(numToName 1, .list [[['w']]])], [], false⟩, []⟩

/-- Witness for `check_preserves_shard_files` at a concrete folder and
file name. -/
theorem check_preserves_shard_files_witness :
    (numToName 1).drop ((numToName 1).length - 5) = jsonExt ∧
    lookupF ((check frameWitnessSt).2).fs.files (numToName 1)
      = lookupF frameWitnessSt.fs.files (numToName 1) :=
  ⟨by decide,
   check_preserves_shard_files frameWitnessSt (numToName 1) (by decide)⟩

/-! ### Round-trip facts about shard names -/

theorem natToDigitsAux_congr :
    ∀ (f g n : Nat), n < f → n < g → natToDigitsAux f n = natToDigitsAux g n := by
  intro f
  induction f with
  | zero => intro g n h; omega
  | succ f ih =>
    intro g n hf hg
    cases g with
    | zero => omega
    | succ g =>
      show natToDigitsAux (f + 1) n = natToDigitsAux (g + 1) n
      unfold natToDigitsAux
      by_cases h10 : n < 10
      · rw [if_pos h10, if_pos h10]
      · rw [if_neg h10, if_neg h10]
        have hdiv : n / 10 < n := Nat.div_lt_self (by omega) (by omega)
        rw [ih g (n / 10) (by omega) (by omega)]

theorem digitChar_isDigit {d : Nat} (h : d < 10) : (digitChar d).isDigit = true := by
  interval_cases d <;> decide

theorem digitChar_toNat {d : Nat} (h : d < 10) : (digitChar d).toNat - 48 = d := by
  interval_cases d <;> decide

theorem natToDigitsAux_ne_nil (f n : Nat) (h : n < f) :
    natToDigitsAux f n ≠ [] := by
  cases f with
  | zero => omega
  | succ f =>
    unfold natToDigitsAux
    by_cases h10 : n < 10
    · rw [if_pos h10]; simp
    · rw [if_neg h10]; simp

theorem natToDigitsAux_all_digit :
    ∀ (f n : Nat), n < f → ∀ c ∈ natToDigitsAux f n, c.isDigit = true := by
  intro f
  induction f with
  | zero => intro n h; omega
  | succ f ih =>
    intro n h c hc
    unfold natToDigitsAux at hc
    by_cases h10 : n < 10
    · rw [if_pos h10] at hc
      rcases List.mem_singleton.mp hc with rfl
      exact digitChar_isDigit h10
    · rw [if_neg h10] at hc
      rcases List.mem_append.mp hc with h1 | h1
      · have hdiv : n / 10 < n := Nat.div_lt_self (by omega) (by omega)
        exact ih (n / 10) (by omega) c h1
      · rcases List.mem_singleton.mp h1 with rfl
        exact digitChar_isDigit (Nat.mod_lt n (by omega))

theorem digitsToNatGo_cons (acc : Nat) (c : Char) (rest : List Char) :
    digitsToNatGo acc (c :: rest) =
      if c.isDigit = true then digitsToNatGo (acc * 10 + (c.toNat - 48)) rest
      else none := rfl

theorem digitsToNatGo_natToDigits :
    ∀ (f n : Nat), n < f → ∀ (acc : Nat) (rest : List Char),
      digitsToNatGo acc (natToDigitsAux f n ++ rest)
        = digitsToNatGo (acc * 10 ^ (natToDigitsAux f n).length + n) rest := by
  intro f
  induction f with
  | zero => intro n h; omega
  | succ f ih =>
    intro n h acc rest
    have haux : natToDigitsAux (f + 1) n =
        if n < 10 then [digitChar n]
        else natToDigitsAux f (n / 10) ++ [digitChar (n % 10)] := rfl
    by_cases h10 : n < 10
    · have hA : natToDigitsAux (f + 1) n = [digitChar n] := by
        rw [haux, if_pos h10]
      rw [hA, List.singleton_append, digitsToNatGo_cons,
        if_pos (digitChar_isDigit h10), digitChar_toNat h10,
        List.length_singleton, pow_one]
    · have hA : natToDigitsAux (f + 1) n
          = natToDigitsAux f (n / 10) ++ [digitChar (n % 10)] := by
        rw [haux, if_neg h10]
      have hdiv : n / 10 < n := Nat.div_lt_self (by omega) (by omega)
      have hmod : n % 10 < 10 := Nat.mod_lt n (by omega)
      rw [hA, List.append_assoc, List.singleton_append,
        ih (n / 10) (by omega) acc (digitChar (n % 10) :: rest),
        digitsToNatGo_cons, if_pos (digitChar_isDigit hmod),
        digitChar_toNat hmod]
      congr 1
      rw [List.length_append, List.length_singleton, pow_succ]
      have hdm : n / 10 * 10 + n % 10 = n := by omega
      calc (acc * 10 ^ (natToDigitsAux f (n / 10)).length + n / 10) * 10 + n % 10
          = acc * (10 ^ (natToDigitsAux f (n / 10)).length * 10)
              + (n / 10 * 10 + n % 10) := by ring
        _ = acc * (10 ^ (natToDigitsAux f (n / 10)).length * 10) + n := by
              rw [hdm]

theorem digitsToNat_natToDigits (n : Nat) :
    digitsToNat? (natToDigits n) = some n := by
  have key := digitsToNatGo_natToDigits (n + 1) n (by omega) 0 []
  rw [List.append_nil] at key
  have hz : (0 : Nat) * 10 ^ (natToDigitsAux (n + 1) n).length + n = n := by ring
  rw [hz] at key
  have hne := natToDigitsAux_ne_nil (n + 1) n (by omega)
  show digitsToNat? (natToDigitsAux (n + 1) n) = some n
  cases hA : natToDigitsAux (n + 1) n with
  | nil => exact absurd hA hne
  | cons c t =>
    show digitsToNatGo 0 (c :: t) = some n
    rw [← hA]
    rw [hA] at key ⊢
    exact key

theorem pyInt_natToDigits (n : Nat) : pyInt (natToDigits n) = some (n : Int) := by
  cases hA : natToDigits n with
  | nil => exact absurd hA (natToDigitsAux_ne_nil (n + 1) n (by omega))
  | cons c t =>
    have hcd : c.isDigit = true := by
      apply natToDigitsAux_all_digit (n + 1) n (by omega)
      show c ∈ natToDigits n
      rw [hA]
      exact List.mem_cons_self c t
    have hc1 : ¬(c = '-') := by
      intro hh
      rw [hh] at hcd
      exact absurd hcd (by decide)
    have hc2 : ¬(c = '+') := by
      intro hh
      rw [hh] at hcd
      exact absurd hcd (by decide)
    have hred : pyInt (c :: t) =
        if c = '-' then (digitsToNat? t).map (fun m => -(m : Int))
        else if c = '+' then (digitsToNat? t).map (fun m => (m : Int))
        else (digitsToNat? (c :: t)).map (fun m => (m : Int)) := rfl
    rw [hred, if_neg hc1, if_neg hc2, ← hA, digitsToNat_natToDigits]
    rfl

theorem numToName_drop (n : Nat) :
    (numToName n).drop ((numToName n).length - 5) = jsonExt := by
  unfold numToName
  have hlen : (natToDigits n ++ jsonExt).length - 5 = (natToDigits n).length := by
    rw [List.length_append]
    rfl
  rw [hlen, List.drop_left]

theorem numToName_take (n : Nat) :
    (numToName n).take ((numToName n).length - 5) = natToDigits n := by
  unfold numToName
  have hlen : (natToDigits n ++ jsonExt).length - 5 = (natToDigits n).length := by
    rw [List.length_append]
    rfl
  rw [hlen, List.take_left]

/-- `get_number` when the suffix test fails. -/
theorem get_number_nosuf {name : Str}
    (h : ¬(name.drop (name.length - 5) = jsonExt)) (b : Bool) :
    get_number name b = .error .valueError := by
  unfold get_number
  rw [if_neg h]

/-- `get_number` when the stem does not parse. -/
theorem get_number_pnone {name : Str}
    (hsuf : name.drop (name.length - 5) = jsonExt)
    (hp : pyInt (name.take (name.length - 5)) = none) (b : Bool) :
    get_number name b = .error .valueError := by
  unfold get_number
  rw [if_pos hsuf, hp]

/-- `get_number` when the stem parses to `n`. -/
theorem get_number_psome {name : Str} {n : Int}
    (hsuf : name.drop (name.length - 5) = jsonExt)
    (hp : pyInt (name.take (name.length - 5)) = some n) (b : Bool) :
    get_number name b =
      if b = true ∧ n = 0 then .ok n
      else if n ≤ 0 then .error .valueError
      else .ok n := by
  unfold get_number
  rw [if_pos hsuf, hp]

/-- `get_number` on a canonical shard name with a positive index. -/
theorem get_number_numToName_pos {n : Nat} (h : 1 ≤ n) (b : Bool) :
    get_number (numToName n) b = .ok (n : Int) := by
  rw [get_number_psome (numToName_drop n)
    (by rw [numToName_take]; exact pyInt_natToDigits n) b]
  have h0 : ¬(b = true ∧ (n : Int) = 0) := by
    rintro ⟨_, hz⟩
    omega
  have h1 : ¬((n : Int) ≤ 0) := by omega
  rw [if_neg h0, if_neg h1]

theorem keyOf_numToName {n : Nat} (h : 1 ≤ n) : keyOf (numToName n) = n := by
  unfold keyOf get_number_safe
  rw [get_number_numToName_pos h false]

theorem is_valid_numToName {n : Nat} (h : 1 ≤ n) :
    is_valid_file_name (numToName n) = true := by
  unfold is_valid_file_name
  rw [get_number_numToName_pos h false]

/-- A name accepted by strict parsing has a positive number. -/
theorem get_number_false_ok_pos {name : Str} {k : Int}
    (h : get_number name false = .ok k) : 1 ≤ k := by
  by_cases hsuf : name.drop (name.length - 5) = jsonExt
  · rcases hp : pyInt (name.take (name.length - 5)) with _ | n
    · rw [get_number_pnone hsuf hp false] at h
      exact absurd h (by simp)
    · rw [get_number_psome hsuf hp false, if_neg (by simp)] at h
      by_cases hn : n ≤ 0
      · rw [if_pos hn] at h
        exact absurd h (by simp)
      · rw [if_neg hn] at h
        simp only [Except.ok.injEq] at h
        omega
  · rw [get_number_nosuf hsuf false] at h
    exact absurd h (by simp)

/-- A name that parses to 0 with `zero_ok` fails strict parsing. -/
theorem get_number_ok_zero_not_valid {name : Str}
    (h : get_number name true = .ok 0) :
    get_number name false = .error .valueError := by
  by_cases hsuf : name.drop (name.length - 5) = jsonExt
  · rcases hp : pyInt (name.take (name.length - 5)) with _ | n
    · exact get_number_pnone hsuf hp false
    · rw [get_number_psome hsuf hp true] at h
      have hn0 : n = 0 := by
        by_cases hz : (true = true ∧ n = 0)
        · exact hz.2
        · rw [if_neg hz] at h
          by_cases hneg : n ≤ 0
          · rw [if_pos hneg] at h
            exact absurd h (by simp)
          · rw [if_neg hneg] at h
            simp only [Except.ok.injEq] at h
            omega
      subst hn0
      rw [get_number_psome hsuf hp false, if_neg (by simp),
        if_pos (by omega : (0 : Int) ≤ 0)]
  · exact get_number_nosuf hsuf false

theorem keyOf_of_ok_zero {name : Str} (h : get_number name true = .ok 0) :
    keyOf name = -1 := by
  unfold keyOf get_number_safe
  rw [get_number_ok_zero_not_valid h]

theorem not_valid_of_ok_zero {name : Str} (h : get_number name true = .ok 0) :
    is_valid_file_name name = false := by
  unfold is_valid_file_name
  rw [get_number_ok_zero_not_valid h]

/-- The format-warning branch of `get_files` is unreachable: a name whose
`zero_ok` parse yields a non-zero number is already a valid shard name. -/
theorem get_number_ok_nonzero_valid {name : Str} {k : Int}
    (h : get_number name true = .ok k) (hk : ¬(k = 0)) :
    is_valid_file_name name = true := by
  unfold is_valid_file_name
  by_cases hsuf : name.drop (name.length - 5) = jsonExt
  · rcases hp : pyInt (name.take (name.length - 5)) with _ | n
    · rw [get_number_pnone hsuf hp true] at h
      exact absurd h (by simp)
    · rw [get_number_psome hsuf hp true] at h
      by_cases hz : (true = true ∧ n = 0)
      · rw [if_pos hz] at h
        simp only [Except.ok.injEq] at h
        exact absurd (h ▸ hz.2) hk
      · rw [if_neg hz] at h
        by_cases hneg : n ≤ 0
        · rw [if_pos hneg] at h
          exact absurd h (by simp)
        · rw [if_neg hneg] at h
          rw [get_number_psome hsuf hp false, if_neg (by simp), if_neg hneg]
  · rw [get_number_nosuf hsuf true] at h
    exact absurd h (by simp)

/-- Strict parsing succeeds exactly when the name is valid, and the
`zero_ok` parse then agrees with it. -/
theorem get_number_true_of_valid {name : Str}
    (h : is_valid_file_name name = true) :
    get_number name true = .ok (keyOf name) ∧ 1 ≤ keyOf name := by
  unfold is_valid_file_name at h
  cases hg : get_number name false with
  | error e => rw [hg] at h; simp at h
  | ok k =>
  have hpos := get_number_false_ok_pos hg
  have hkey : keyOf name = k := by
    unfold keyOf get_number_safe
    rw [hg]
  refine ⟨?_, hkey ▸ hpos⟩
  rw [hkey]
  by_cases hsuf : name.drop (name.length - 5) = jsonExt
  · rcases hp : pyInt (name.take (name.length - 5)) with _ | n
    · rw [get_number_pnone hsuf hp false] at hg
      exact absurd hg (by simp)
    · rw [get_number_psome hsuf hp false, if_neg (by simp)] at hg
      by_cases hneg : n ≤ 0
      · rw [if_pos hneg] at hg
        exact absurd hg (by simp)
      · rw [if_neg hneg] at hg
        simp only [Except.ok.injEq] at hg
        subst hg
        rw [get_number_psome hsuf hp true,
          if_neg (by omega : ¬(true = true ∧ n = 0)), if_neg hneg]
  · rw [get_number_nosuf hsuf false] at hg
    exact absurd hg (by simp)

theorem keyOf_pos_of_valid {name : Str}
    (h : is_valid_file_name name = true) : 1 ≤ keyOf name :=
  (get_number_true_of_valid h).2

theorem valid_ne_newName {name : Str}
    (h : is_valid_file_name name = true) : name ≠ newName := by
  intro hh
  rw [hh] at h
  exact absurd h (by decide)

theorem ok_zero_ne_newName {name : Str}
    (h : get_number name true = .ok 0) : name ≠ newName := by
  intro hh
  rw [hh] at h
  rw [show get_number newName true = .error .valueError from rfl] at h
  exact absurd h (by simp)

/-- Every sort key is `-1` or at least `1` (0 is never returned by the
strict parse). -/
theorem keyOf_cases (n : Str) : keyOf n = -1 ∨ 1 ≤ keyOf n := by
  unfold keyOf get_number_safe
  cases hg : get_number n false with
  | error e => left; rfl
  | ok k => right; exact get_number_false_ok_pos hg

theorem keyOf_ge_neg_one (n : Str) : -1 ≤ keyOf n := by
  rcases keyOf_cases n with h | h <;> omega

theorem valid_iff_keyOf (n : Str) :
    is_valid_file_name n = true ↔ 1 ≤ keyOf n := by
  unfold is_valid_file_name keyOf get_number_safe
  cases hg : get_number n false with
  | error e => simp
  | ok k =>
    have := get_number_false_ok_pos hg
    simp [this]

theorem keyOf_of_not_valid {n : Str} (h : ¬(is_valid_file_name n = true)) :
    keyOf n = -1 := by
  rcases keyOf_cases n with hk | hk
  · exact hk
  · exact absurd ((valid_iff_keyOf n).mpr hk) h

/-! ### The stable sort of `get_files` -/

theorem insSorted_cons (x y : Str) (ys : List Str) :
    insSorted x (y :: ys) =
      if keyOf x ≤ keyOf y then x :: y :: ys else y :: insSorted x ys := rfl

theorem mem_insSorted {a x : Str} {l : List Str} :
    a ∈ insSorted x l ↔ a = x ∨ a ∈ l := by
  induction l with
  | nil => simp [insSorted]
  | cons y ys ih =>
    rw [insSorted_cons]
    by_cases h : keyOf x ≤ keyOf y
    · rw [if_pos h]
      simp
    · rw [if_neg h]
      simp only [List.mem_cons, ih]
      tauto

theorem mem_sortNames {a : Str} {l : List Str} :
    a ∈ sortNames l ↔ a ∈ l := by
  induction l with
  | nil => simp [sortNames]
  | cons x xs ih =>
    show a ∈ insSorted x (sortNames xs) ↔ _
    rw [mem_insSorted, ih]
    simp

theorem perm_insSorted (x : Str) (l : List Str) :
    (insSorted x l).Perm (x :: l) := by
  induction l with
  | nil => exact List.Perm.refl _
  | cons y ys ih =>
    rw [insSorted_cons]
    by_cases h : keyOf x ≤ keyOf y
    · rw [if_pos h]
    · rw [if_neg h]
      exact (ih.cons y).trans (List.Perm.swap x y ys)

theorem perm_sortNames (l : List Str) : (sortNames l).Perm l := by
  induction l with
  | nil => exact List.Perm.refl _
  | cons x xs ih =>
    exact (perm_insSorted x (sortNames xs)).trans (ih.cons x)

/-- Stable insertion walks past a block of keys that reject `x`. -/
theorem insSorted_append_skip (x : Str) (F m : List Str)
    (h : ∀ f ∈ F, ¬(keyOf x ≤ keyOf f)) :
    insSorted x (F ++ m) = F ++ insSorted x m := by
  induction F with
  | nil => simp
  | cons f F ih =>
    rw [List.cons_append, insSorted_cons,
      if_neg (h f (List.mem_cons_self f F)), List.cons_append,
      ih (fun g hg => h g (List.mem_cons_of_mem f hg))]

/-- The partition shape of the Python stable sort on any listing whose
valid names appear in strictly ascending key order: unparseable and
header-numbered names (key `-1`) move to the front keeping their order,
valid shard names follow, keeping theirs. -/
theorem sortNames_partition (l : List Str)
    (hp : (l.filter is_valid_file_name).Pairwise (fun a b => keyOf a < keyOf b)) :
    sortNames l =
      l.filter (fun n => !(is_valid_file_name n)) ++ l.filter is_valid_file_name := by
  induction l with
  | nil => rfl
  | cons a t ih =>
    show insSorted a (sortNames t) = _
    by_cases hv : is_valid_file_name a = true
    · have hfa : (a :: t).filter is_valid_file_name
          = a :: t.filter is_valid_file_name := by
        rw [List.filter_cons, if_pos hv]
      rw [hfa] at hp
      have hlt : ∀ v ∈ t.filter is_valid_file_name, keyOf a < keyOf v :=
        fun v hvv => (List.pairwise_cons.mp hp).1 v hvv
      rw [ih (List.pairwise_cons.mp hp).2,
        insSorted_append_skip a _ _ (fun f hf => by
          have hfnv : is_valid_file_name f = false := by
            have := (List.mem_filter.mp hf).2
            simpa using this
          have hkf : keyOf f = -1 := keyOf_of_not_valid (by simp [hfnv])
          have hka : 1 ≤ keyOf a := (valid_iff_keyOf a).mp hv
          omega)]
      have hins : insSorted a (t.filter is_valid_file_name)
          = a :: t.filter is_valid_file_name := by
        cases hV : t.filter is_valid_file_name with
        | nil => rfl
        | cons v V =>
          have hvmem : v ∈ t.filter is_valid_file_name := by
            rw [hV]
            exact List.mem_cons_self v V
          rw [insSorted_cons, if_pos (le_of_lt (hlt v hvmem))]
      have hfneg : (a :: t).filter (fun n => !(is_valid_file_name n))
          = t.filter (fun n => !(is_valid_file_name n)) := by
        rw [List.filter_cons, if_neg (by simp [hv])]
      rw [hins, hfa, hfneg]
    · have hka : keyOf a = -1 := keyOf_of_not_valid hv
      have hfa : (a :: t).filter is_valid_file_name
          = t.filter is_valid_file_name := by
        rw [List.filter_cons, if_neg (by simpa using hv)]
      rw [hfa] at hp
      rw [ih hp]
      have hins : insSorted a
          (t.filter (fun n => !(is_valid_file_name n)) ++ t.filter is_valid_file_name)
          = a :: (t.filter (fun n => !(is_valid_file_name n))
              ++ t.filter is_valid_file_name) := by
        cases hFV : t.filter (fun n => !(is_valid_file_name n))
            ++ t.filter is_valid_file_name with
        | nil => rfl
        | cons h2 t2 =>
          rw [insSorted_cons, if_pos (by
            have := keyOf_ge_neg_one h2
            omega)]
      have hfneg : (a :: t).filter (fun n => !(is_valid_file_name n))
          = a :: t.filter (fun n => !(is_valid_file_name n)) := by
        rw [List.filter_cons, if_pos (by simpa using hv)]
      rw [hins, hfa, hfneg, List.cons_append]

/-! ### Evaluation of the enumeration -/

/-- On a listing free of `new`, enumeration never touches the state, and on
success returns exactly the valid names in listing order; every processed
name is then valid or header-numbered. -/
theorem enumGo_no_new :
    ∀ (l : List Str) (st : St) (r : Except Err (List Str)) (st' : St),
      (∀ n ∈ l, n ≠ newName) → enumGo l st = (r, st') →
      st' = st ∧
      ∀ out, r = .ok out →
        out = l.filter is_valid_file_name ∧
        ∀ n ∈ l, is_valid_file_name n = true ∨ get_number n true = .ok 0 := by
  intro l
  induction l with
  | nil =>
    intro st r st' _ h
    simp only [enumGo, M.pure_apply] at h
    cases h
    exact ⟨rfl, fun out hout => by
      cases hout
      exact ⟨rfl, by simp⟩⟩
  | cons n rest ih =>
    intro st r st' hnew h
    have hn_ne : n ≠ newName := hnew n (List.mem_cons_self n rest)
    rw [show enumGo (n :: rest) =
        (if n = newName then do
          unlinkFile n
          enumGo rest
        else if is_valid_file_name n = true then do
          let r ← enumGo rest
          pure (n :: r)
        else
          match get_number n true with
          | .ok k =>
            if k = 0 then enumGo rest
            else do
              M.warn (.invalidFileName n)
              let r ← enumGo rest
              pure (n :: r)
          | .error e => M.throw e) from rfl, if_neg hn_ne] at h
    by_cases hv : is_valid_file_name n = true
    · rw [if_pos hv] at h
      simp only [M.bind_apply] at h
      rcases hrec : enumGo rest st with ⟨r1, st1⟩
      rw [hrec] at h
      have hIH := ih st r1 st1 (fun m hm => hnew m (List.mem_cons_of_mem n hm)) hrec
      cases r1 with
      | ok fr =>
        simp only [M.pure_apply] at h
        cases h
        refine ⟨hIH.1, fun out hout => ?_⟩
        cases hout
        rcases hIH.2 fr rfl with ⟨hfr, hall⟩
        subst hfr
        refine ⟨by rw [List.filter_cons, if_pos hv], ?_⟩
        intro m hm
        rcases List.mem_cons.mp hm with rfl | hm'
        · exact Or.inl hv
        · exact hall m hm'
      | error e =>
        cases h
        exact ⟨hIH.1, fun out hout => by cases hout⟩
    · rw [if_neg hv] at h
      cases hgn : get_number n true with
      | ok k =>
        rw [hgn] at h
        have h2 : (if k = 0 then enumGo rest
            else do
              M.warn (.invalidFileName n)
              let r ← enumGo rest
              pure (n :: r)) st = (r, st') := h
        by_cases hk : k = 0
        · rw [if_pos hk] at h2
          have hIH := ih st r st'
            (fun m hm => hnew m (List.mem_cons_of_mem n hm)) h2
          refine ⟨hIH.1, fun out hout => ?_⟩
          rcases hIH.2 out hout with ⟨hfr, hall⟩
          refine ⟨by rw [List.filter_cons, if_neg (by simpa using hv)]; exact hfr, ?_⟩
          intro m hm
          rcases List.mem_cons.mp hm with rfl | hm'
          · exact Or.inr (hk ▸ hgn)
          · exact hall m hm'
        · exact absurd (get_number_ok_nonzero_valid hgn hk) hv
      | error e =>
        rw [hgn] at h
        have h2 : (M.throw e : M (List Str)) st = (r, st') := h
        simp only [M.throw_apply] at h2
        cases h2
        exact ⟨rfl, fun out hout => by cases hout⟩

/-! ### The canonical chunking of a record sequence

`chunksAll R` is the sequence of staged-shard contents `fix` produces from
the record queue `R`: full chunks of `MAX_QUOTES_PER_FILE` records while
more than a chunk remains, then the (non-empty) remainder. -/

def chunksAllAux : Nat → List Record → List (List Record)
  | 0, _ => []
  | f + 1, R =>
    if R.length > MAX_QUOTES_PER_FILE then
      R.take MAX_QUOTES_PER_FILE :: chunksAllAux f (R.drop MAX_QUOTES_PER_FILE)
    else if R = [] then [] else [R]

def chunksAll (R : List Record) : List (List Record) :=
  chunksAllAux (R.length + 1) R

theorem chunksAllAux_congr :
    ∀ (f g : Nat) (R : List Record), R.length < f → R.length < g →
      chunksAllAux f R = chunksAllAux g R := by
  intro f
  induction f with
  | zero => intro g R h; omega
  | succ f ih =>
    intro g R hf hg
    cases g with
    | zero => omega
    | succ g =>
      have e1 : chunksAllAux (f + 1) R =
          if R.length > MAX_QUOTES_PER_FILE then
            R.take MAX_QUOTES_PER_FILE
              :: chunksAllAux f (R.drop MAX_QUOTES_PER_FILE)
          else if R = [] then [] else [R] := rfl
      have e2 : chunksAllAux (g + 1) R =
          if R.length > MAX_QUOTES_PER_FILE then
            R.take MAX_QUOTES_PER_FILE
              :: chunksAllAux g (R.drop MAX_QUOTES_PER_FILE)
          else if R = [] then [] else [R] := rfl
      rw [e1, e2]
      by_cases hlen : R.length > MAX_QUOTES_PER_FILE
      · rw [if_pos hlen, if_pos hlen,
          ih g (R.drop MAX_QUOTES_PER_FILE)
            (by rw [List.length_drop]; unfold MAX_QUOTES_PER_FILE at *; omega)
            (by rw [List.length_drop]; unfold MAX_QUOTES_PER_FILE at *; omega)]
      · rw [if_neg hlen, if_neg hlen]

theorem chunksAll_step (R : List Record) :
    chunksAll R =
      if R.length > MAX_QUOTES_PER_FILE then
        R.take MAX_QUOTES_PER_FILE :: chunksAll (R.drop MAX_QUOTES_PER_FILE)
      else if R = [] then [] else [R] := by
  unfold chunksAll
  have e1 : chunksAllAux (R.length + 1) R =
      if R.length > MAX_QUOTES_PER_FILE then
        R.take MAX_QUOTES_PER_FILE
          :: chunksAllAux R.length (R.drop MAX_QUOTES_PER_FILE)
      else if R = [] then [] else [R] := rfl
  rw [e1]
  by_cases hlen : R.length > MAX_QUOTES_PER_FILE
  · rw [if_pos hlen, if_pos hlen,
      chunksAllAux_congr R.length ((R.drop MAX_QUOTES_PER_FILE).length + 1)
        (R.drop MAX_QUOTES_PER_FILE)
        (by rw [List.length_drop]; unfold MAX_QUOTES_PER_FILE at *; omega)
        (by omega)]
  · rw [if_neg hlen, if_neg hlen]

theorem chunksAll_nil : chunksAll [] = [] := rfl

theorem chunksAll_small {R : List Record} (h1 : R ≠ [])
    (h2 : R.length ≤ MAX_QUOTES_PER_FILE) : chunksAll R = [R] := by
  rw [chunksAll_step, if_neg (by omega), if_neg h1]

theorem chunksAll_ne_nil {R : List Record} (h : R ≠ []) :
    chunksAll R ≠ [] := by
  rw [chunksAll_step]
  by_cases hlen : R.length > MAX_QUOTES_PER_FILE
  · rw [if_pos hlen]; simp
  · rw [if_neg hlen, if_neg h]; simp

/-- Peeling a full chunk off the front commutes with chunking. -/
theorem chunksAll_chunk {c : List Record} (r : List Record)
    (hc : c.length = MAX_QUOTES_PER_FILE) :
    chunksAll (c ++ r) = c :: chunksAll r := by
  rw [chunksAll_step]
  by_cases hr : r = []
  · subst hr
    rw [List.append_nil]
    have h1 : ¬(c.length > MAX_QUOTES_PER_FILE) := by omega
    have h2 : c ≠ [] := by
      intro hh
      rw [hh] at hc
      exact absurd hc (by decide)
    rw [if_neg h1, if_neg h2, chunksAll_nil]
  · have hlen : (c ++ r).length > MAX_QUOTES_PER_FILE := by
      rw [List.length_append, hc]
      have : r.length ≠ 0 := fun hh => hr (List.eq_nil_of_length_eq_zero hh)
      omega
    rw [if_pos hlen]
    have htake : (c ++ r).take MAX_QUOTES_PER_FILE = c := by
      rw [← hc]
      exact List.take_left c r
    have hdrop : (c ++ r).drop MAX_QUOTES_PER_FILE = r := by
      rw [← hc]
      exact List.drop_left c r
    rw [htake, hdrop]

theorem chunksAll_flatten :
    ∀ (N : Nat) (R : List Record), R.length ≤ N →
      (chunksAll R).flatten = R := by
  intro N
  induction N with
  | zero =>
    intro R h
    have : R = [] := List.eq_nil_of_length_eq_zero (by omega)
    subst this
    rfl
  | succ N ih =>
    intro R h
    rw [chunksAll_step]
    by_cases hlen : R.length > MAX_QUOTES_PER_FILE
    · rw [if_pos hlen]
      rw [List.flatten_cons,
        ih (R.drop MAX_QUOTES_PER_FILE)
          (by rw [List.length_drop]; unfold MAX_QUOTES_PER_FILE at *; omega),
        List.take_append_drop]
    · rw [if_neg hlen]
      by_cases hr : R = []
      · rw [if_pos hr, hr]
        rfl
      · rw [if_neg hr]
        simp

/-- Every chunk is non-empty and at most the cap; every chunk but the last
is exactly the cap. -/
theorem chunksAll_sizes :
    ∀ (N : Nat) (R : List Record), R.length ≤ N →
      (∀ c ∈ chunksAll R, c ≠ [] ∧ c.length ≤ MAX_QUOTES_PER_FILE) ∧
      (∀ c ∈ (chunksAll R).dropLast, c.length = MAX_QUOTES_PER_FILE) := by
  intro N
  induction N with
  | zero =>
    intro R h
    have : R = [] := List.eq_nil_of_length_eq_zero (by omega)
    subst this
    exact ⟨by simp [chunksAll_nil], by simp [chunksAll_nil]⟩
  | succ N ih =>
    intro R h
    rw [chunksAll_step]
    by_cases hlen : R.length > MAX_QUOTES_PER_FILE
    · rw [if_pos hlen]
      have hdlen : (R.drop MAX_QUOTES_PER_FILE).length ≤ N := by
        rw [List.length_drop]
        unfold MAX_QUOTES_PER_FILE at *
        omega
      have hIH := ih (R.drop MAX_QUOTES_PER_FILE) hdlen
      have htlen : (R.take MAX_QUOTES_PER_FILE).length = MAX_QUOTES_PER_FILE := by
        rw [List.length_take]
        omega
      constructor
      · intro c hc
        rcases List.mem_cons.mp hc with rfl | hc'
        · refine ⟨?_, by omega⟩
          intro hh
          rw [hh] at htlen
          exact absurd htlen (by decide)
        · exact hIH.1 c hc'
      · intro c hc
        have hne : chunksAll (R.drop MAX_QUOTES_PER_FILE) ≠ [] := by
          apply chunksAll_ne_nil
          intro hh
          have := congrArg List.length hh
          rw [List.length_drop] at this
          unfold MAX_QUOTES_PER_FILE at *
          simp at this
          omega
        rw [List.dropLast_cons_of_ne_nil hne] at hc
        rcases List.mem_cons.mp hc with rfl | hc'
        · exact htlen
        · exact hIH.2 c hc'
    · rw [if_neg hlen]
      by_cases hr : R = []
      · rw [if_pos hr]
        exact ⟨by simp, by simp⟩
      · rw [if_neg hr]
        constructor
        · intro c hc
          rcases List.mem_singleton.mp hc with rfl
          exact ⟨hr, by omega⟩
        · intro c hc
          simp at hc

/-! ### Evaluation equations for the primitive file operations -/

theorem readFile_eval (n : Str) (st : St) :
    readFile n st =
      (.ok ((lookupF st.fs.files n).getD (.dict emptyDict)), st) := rfl

theorem openDict_eval (n : Str) (st : St) :
    openDict n st =
      (.ok (asDict ((lookupF st.fs.files n).getD (.dict emptyDict))), st) := rfl

theorem openList_eval (n : Str) (st : St) :
    openList n st =
      (.ok (asList ((lookupF st.fs.files n).getD (.dict emptyDict))), st) := rfl

theorem writeFile_eval (n : Str) (v : JVal) (st : St) :
    writeFile n v st =
      (.ok (), ⟨{ st.fs with files := setF st.fs.files n v }, st.log⟩) := rfl

theorem readNewDict_eval (n : Str) (st : St) :
    readNewDict n st =
      (.ok (asDict ((lookupF st.fs.newFiles n).getD (.dict emptyDict))), st) := rfl

theorem writeNew_eval (n : Str) (v : JVal) (st : St) :
    writeNew n v st =
      (.ok (), ⟨{ st.fs with newFiles := setF st.fs.newFiles n v }, st.log⟩) := rfl

theorem unlinkFile_eval (n : Str) (st : St) :
    unlinkFile n st =
      (.ok (), ⟨{ st.fs with files := eraseF st.fs.files n }, st.log⟩) := rfl

theorem renameAll_eval (st : St) :
    renameAll st =
      (.ok (), ⟨{ st.fs with
        files := st.fs.newFiles.foldl (fun acc p => setF acc p.1 p.2) st.fs.files,
        newFiles := [],
        hasNewDir := false }, st.log⟩) := rfl

/-! ### Association-list lemmas -/

theorem lookupF_setF (l : List (Str × JVal)) (n : Str) (v : JVal) (m : Str) :
    lookupF (setF l n v) m = if n = m then some v else lookupF l m := by
  induction l with
  | nil =>
    show lookupF [(n, v)] m = _
    unfold lookupF
    by_cases h : n = m
    · rw [if_pos h, if_pos h]
    · rw [if_neg h, if_neg h]
      rfl
  | cons p rest ih =>
    show lookupF (if p.1 = n then (n, v) :: rest else p :: setF rest n v) m = _
    by_cases hp : p.1 = n
    · rw [if_pos hp]
      show (if n = m then some v else lookupF rest m) = _
      by_cases hnm : n = m
      · rw [if_pos hnm, if_pos hnm]
      · rw [if_neg hnm, if_neg hnm]
        show lookupF rest m = lookupF (p :: rest) m
        have hpm : ¬(p.1 = m) := by
          rw [hp]
          exact hnm
        show lookupF rest m = if p.1 = m then some p.2 else lookupF rest m
        rw [if_neg hpm]
    · rw [if_neg hp]
      show (if p.1 = m then some p.2 else lookupF (setF rest n v) m) = _
      by_cases hpm : p.1 = m
      · rw [if_pos hpm]
        have hnm : ¬(n = m) := by
          intro hh
          exact hp (by rw [hpm, hh])
        rw [if_neg hnm]
        show some p.2 = lookupF (p :: rest) m
        show some p.2 = if p.1 = m then some p.2 else lookupF rest m
        rw [if_pos hpm]
      · rw [if_neg hpm, ih]
        by_cases hnm : n = m
        · rw [if_pos hnm, if_pos hnm]
        · rw [if_neg hnm, if_neg hnm]
          show lookupF rest m = if p.1 = m then some p.2 else lookupF rest m
          rw [if_neg hpm]

/-- Writing back the value already present does not change the listing. -/
theorem setF_of_lookup_eq :
    ∀ {l : List (Str × JVal)} {n : Str} {v : JVal},
      lookupF l n = some v → setF l n v = l := by
  intro l
  induction l with
  | nil => intro n v h; cases h
  | cons p rest ih =>
    intro n v h
    show (if p.1 = n then (n, v) :: rest else p :: setF rest n v) = p :: rest
    unfold lookupF at h
    by_cases hp : p.1 = n
    · rw [if_pos hp]
      rw [if_pos hp] at h
      cases h
      rw [← hp]
    · rw [if_neg hp]
      rw [if_neg hp] at h
      rw [ih h]

theorem mem_keys_of_lookupF {l : List (Str × JVal)} {n : Str} {v : JVal}
    (h : lookupF l n = some v) : (n, v) ∈ l := by
  induction l with
  | nil => cases h
  | cons p rest ih =>
    unfold lookupF at h
    by_cases hp : p.1 = n
    · rw [if_pos hp] at h
      have hv : p.2 = v := by injection h
      have hpnv : p = (n, v) := by
        rcases p with ⟨a, b⟩
        simp only at hp hv
        rw [hp, hv]
      rw [← hpnv]
      exact List.mem_cons_self p rest
    · rw [if_neg hp] at h
      exact List.mem_cons_of_mem p (ih h)

theorem lookupF_none_of_not_mem {l : List (Str × JVal)} {n : Str}
    (h : n ∉ l.map Prod.fst) : lookupF l n = none := by
  induction l with
  | nil => rfl
  | cons p rest ih =>
    unfold lookupF
    rw [List.map_cons, List.mem_cons] at h
    push_neg at h
    rw [if_neg (fun hh => h.1 hh.symm)]
    exact ih h.2

theorem lookupF_isSome_of_mem {l : List (Str × JVal)} {n : Str}
    (h : n ∈ l.map Prod.fst) : lookupF l n ≠ none := by
  induction l with
  | nil => simp at h
  | cons p rest ih =>
    unfold lookupF
    rw [List.map_cons, List.mem_cons] at h
    by_cases hp : p.1 = n
    · rw [if_pos hp]
      simp
    · rw [if_neg hp]
      rcases h with h | h
      · exact absurd h.symm hp
      · exact ih h

/-- With no duplicate names, the lookup of a listed entry is its value. -/
theorem lookupF_of_mem_nodup {l : List (Str × JVal)} {p : Str × JVal}
    (hnd : (l.map Prod.fst).Nodup) (h : p ∈ l) :
    lookupF l p.1 = some p.2 := by
  induction l with
  | nil => simp at h
  | cons q rest ih =>
    rw [List.map_cons, List.nodup_cons] at hnd
    rcases List.mem_cons.mp h with rfl | h'
    · unfold lookupF
      rw [if_pos rfl]
    · unfold lookupF
      have hq : ¬(q.1 = p.1) := by
        intro hh
        exact hnd.1 (hh ▸ List.mem_map_of_mem Prod.fst h')
      rw [if_neg hq]
      exact ih hnd.2 h'

theorem setF_append_of_not_mem {l : List (Str × JVal)} {n : Str}
    (h : n ∉ l.map Prod.fst) (v : JVal) : setF l n v = l ++ [(n, v)] := by
  induction l with
  | nil => rfl
  | cons p rest ih =>
    rw [List.map_cons, List.mem_cons] at h
    push_neg at h
    show (if p.1 = n then (n, v) :: rest else p :: setF rest n v) = _
    rw [if_neg (fun hh => h.1 hh.symm), ih h.2, List.cons_append]

theorem setF_append_left {A : List (Str × JVal)} {n : Str}
    (h : n ∈ A.map Prod.fst) (B : List (Str × JVal)) (v : JVal) :
    setF (A ++ B) n v = setF A n v ++ B := by
  induction A with
  | nil => simp at h
  | cons p rest ih =>
    rw [List.map_cons, List.mem_cons] at h
    show (if p.1 = n then (n, v) :: (rest ++ B) else p :: setF (rest ++ B) n v)
      = _
    by_cases hp : p.1 = n
    · rw [if_pos hp]
      show _ = (if p.1 = n then (n, v) :: rest else p :: setF rest n v) ++ B
      rw [if_pos hp, List.cons_append]
    · rw [if_neg hp]
      rcases h with h | h
      · exact absurd h.symm hp
      · show _ = (if p.1 = n then (n, v) :: rest else p :: setF rest n v) ++ B
        rw [if_neg hp, List.cons_append, ih h]

theorem lookupF_append (A B : List (Str × JVal)) (n : Str) :
    lookupF (A ++ B) n =
      match lookupF A n with
      | some v => some v
      | none => lookupF B n := by
  induction A with
  | nil => rfl
  | cons p rest ih =>
    show (if p.1 = n then some p.2 else lookupF (rest ++ B) n) = _
    by_cases hp : p.1 = n
    · rw [if_pos hp]
      show _ = (match (if p.1 = n then some p.2 else lookupF rest n) with
        | some v => some v | none => lookupF B n)
      rw [if_pos hp]
    · rw [if_neg hp, ih]
      show _ = (match (if p.1 = n then some p.2 else lookupF rest n) with
        | some v => some v | none => lookupF B n)
      rw [if_neg hp]

theorem lookupF_append_of_not_left {A : List (Str × JVal)} {n : Str}
    (h : n ∉ A.map Prod.fst) (B : List (Str × JVal)) :
    lookupF (A ++ B) n = lookupF B n := by
  rw [lookupF_append, lookupF_none_of_not_mem h]

theorem keys_setF_of_mem {l : List (Str × JVal)} {n : Str}
    (h : n ∈ l.map Prod.fst) (v : JVal) :
    (setF l n v).map Prod.fst = l.map Prod.fst := by
  induction l with
  | nil => simp at h
  | cons p rest ih =>
    rw [List.map_cons, List.mem_cons] at h
    show ((if p.1 = n then (n, v) :: rest else p :: setF rest n v)).map Prod.fst
      = _
    by_cases hp : p.1 = n
    · rw [if_pos hp, List.map_cons, List.map_cons, hp]
    · rw [if_neg hp]
      rcases h with h | h
      · exact absurd h.symm hp
      · rw [List.map_cons, List.map_cons, ih h]

/-- With no duplicate names, deletion is filtering the name out. -/
theorem eraseF_eq_filter {l : List (Str × JVal)} (n : Str)
    (hnd : (l.map Prod.fst).Nodup) :
    eraseF l n = l.filter (fun p => !(p.1 = n)) := by
  induction l with
  | nil => rfl
  | cons p rest ih =>
    rw [List.map_cons, List.nodup_cons] at hnd
    show (if p.1 = n then rest else p :: eraseF rest n) = _
    by_cases hp : p.1 = n
    · rw [if_pos hp, List.filter_cons, if_neg (by simp [hp])]
      have : rest.filter (fun p => !(p.1 = n)) = rest := by
        apply List.filter_eq_self.mpr
        intro q hq
        have : ¬(q.1 = n) := by
          intro hh
          exact hnd.1 (by
            rw [← hp, ← hh] at *
            exact List.mem_map_of_mem Prod.fst hq)
        simp [this]
      rw [this]
    · rw [if_neg hp, List.filter_cons, if_pos (by simp [hp]), ih hnd.2]

/-- Deleting each of a list of names in turn. -/
def eraseAllF (l : List (Str × JVal)) : List Str → List (Str × JVal)
  | [] => l
  | n :: rest => eraseAllF (eraseF l n) rest

theorem eraseAllF_eq_filter :
    ∀ (fl : List Str) (l : List (Str × JVal)),
      (l.map Prod.fst).Nodup →
      eraseAllF l fl = l.filter (fun p => !(decide (p.1 ∈ fl))) := by
  intro fl
  induction fl with
  | nil =>
    intro l _
    show l = l.filter _
    symm
    apply List.filter_eq_self.mpr
    intro p _
    simp
  | cons n rest ih =>
    intro l hnd
    show eraseAllF (eraseF l n) rest = _
    rw [eraseF_eq_filter n hnd] at *
    have hnd2 : ((l.filter (fun p => !(p.1 = n))).map Prod.fst).Nodup := by
      have hsub : (l.filter (fun p => !(p.1 = n))).Sublist l :=
        List.filter_sublist l
      exact (hsub.map Prod.fst).nodup hnd
    rw [ih _ hnd2, List.filter_filter]
    apply List.filter_congr
    intro p _
    by_cases h1 : p.1 = n <;> by_cases h2 : p.1 ∈ rest <;> simp [h1, h2]

theorem nodup_keys_setF (l : List (Str × JVal)) (n : Str) (v : JVal)
    (hnd : (l.map Prod.fst).Nodup) :
    ((setF l n v).map Prod.fst).Nodup := by
  by_cases h : n ∈ l.map Prod.fst
  · rw [keys_setF_of_mem h]
    exact hnd
  · rw [setF_append_of_not_mem h, List.map_append]
    simp only [List.map_cons, List.map_nil]
    rw [List.nodup_append]
    exact ⟨hnd, List.nodup_singleton n, by
      intro a ha hb
      simp at hb
      rw [hb] at ha
      exact h ha⟩

/-! ### The canonical shard entries written by `fix` -/

/-- The staged shard files `(k.json, c₀), (k+1.json, c₁), …`. -/
def shardEntriesFrom : Nat → List (List Record) → List (Str × JVal)
  | _, [] => []
  | k, c :: C => (numToName k, .list c) :: shardEntriesFrom (k + 1) C

/-- The names `k.json, (k+1).json, …` (`m` of them). -/
def shardNamesFrom : Nat → Nat → List Str
  | _, 0 => []
  | k, m + 1 => numToName k :: shardNamesFrom (k + 1) m

theorem numToName_inj : ∀ {a b : Nat}, numToName a = numToName b → a = b := by
  intro a b h
  rcases Nat.eq_zero_or_pos a with ha | ha
  · rcases Nat.eq_zero_or_pos b with hb | hb
    · omega
    · have := keyOf_numToName hb
      rw [← h, ha] at this
      rw [show keyOf (numToName 0) = -1 from by decide] at this
      omega
  · rcases Nat.eq_zero_or_pos b with hb | hb
    · have := keyOf_numToName ha
      rw [h, hb] at this
      rw [show keyOf (numToName 0) = -1 from by decide] at this
      omega
    · have h1 := keyOf_numToName ha
      have h2 := keyOf_numToName hb
      rw [h] at h1
      rw [h1] at h2
      exact_mod_cast h2

theorem shardEntriesFrom_map_fst :
    ∀ (C : List (List Record)) (k : Nat),
      (shardEntriesFrom k C).map Prod.fst = shardNamesFrom k C.length := by
  intro C
  induction C with
  | nil => intro k; rfl
  | cons c C ih =>
    intro k
    show List.map Prod.fst
        ((numToName k, JVal.list c) :: shardEntriesFrom (k + 1) C) = _
    rw [List.map_cons, ih (k + 1)]
    rfl

theorem shardEntriesFrom_append :
    ∀ (A : List (List Record)) (k : Nat) (B : List (List Record)),
      shardEntriesFrom k (A ++ B)
        = shardEntriesFrom k A ++ shardEntriesFrom (k + A.length) B := by
  intro A
  induction A with
  | nil =>
    intro k B
    simp [shardEntriesFrom]
  | cons c A ih =>
    intro k B
    show (numToName k, JVal.list c) :: shardEntriesFrom (k + 1) (A ++ B) = _
    rw [ih (k + 1) B]
    show _ = (numToName k, JVal.list c)
        :: (shardEntriesFrom (k + 1) A ++ shardEntriesFrom (k + (A.length + 1)) B)
    have : k + 1 + A.length = k + (A.length + 1) := by omega
    rw [this]

theorem mem_shardNamesFrom :
    ∀ (m k : Nat) (n : Str),
      n ∈ shardNamesFrom k m ↔ ∃ i, i < m ∧ n = numToName (k + i) := by
  intro m
  induction m with
  | zero =>
    intro k n
    constructor
    · intro h; simp [shardNamesFrom] at h
    · rintro ⟨i, hi, _⟩; omega
  | succ m ih =>
    intro k n
    show n ∈ numToName k :: shardNamesFrom (k + 1) m ↔ _
    rw [List.mem_cons, ih (k + 1)]
    constructor
    · rintro (rfl | ⟨i, hi, rfl⟩)
      · exact ⟨0, by omega, by rw [Nat.add_zero]⟩
      · exact ⟨i + 1, by omega, by rw [show k + (i + 1) = k + 1 + i by omega]⟩
    · rintro ⟨i, hi, rfl⟩
      cases i with
      | zero => left; rw [Nat.add_zero]
      | succ i =>
        right
        exact ⟨i, by omega, by rw [show k + 1 + i = k + (i + 1) by omega]⟩

theorem shardNamesFrom_valid {m k : Nat} (hk : 1 ≤ k) :
    ∀ n ∈ shardNamesFrom k m, is_valid_file_name n = true := by
  intro n hn
  rcases (mem_shardNamesFrom m k n).mp hn with ⟨i, _, rfl⟩
  exact is_valid_numToName (by omega)

theorem shardNamesFrom_pairwise :
    ∀ (m k : Nat), 1 ≤ k →
      (shardNamesFrom k m).Pairwise (fun a b => keyOf a < keyOf b) := by
  intro m
  induction m with
  | zero => intro k _; exact List.Pairwise.nil
  | succ m ih =>
    intro k hk
    show ((numToName k :: shardNamesFrom (k + 1) m)).Pairwise _
    rw [List.pairwise_cons]
    refine ⟨?_, ih (k + 1) (by omega)⟩
    intro b hb
    rcases (mem_shardNamesFrom m (k + 1) b).mp hb with ⟨i, _, rfl⟩
    rw [keyOf_numToName (by omega : 1 ≤ k),
      keyOf_numToName (by omega : 1 ≤ k + 1 + i)]
    omega

theorem shardNamesFrom_nodup {m k : Nat} (hk : 1 ≤ k) :
    (shardNamesFrom k m).Nodup := by
  have hp := shardNamesFrom_pairwise m k hk
  show (shardNamesFrom k m).Pairwise (fun a b => a ≠ b)
  exact hp.imp (fun hlt he => absurd (he ▸ hlt) (lt_irrefl _))

theorem zeroJson_not_mem_shardNamesFrom {m k : Nat} (hk : 1 ≤ k) :
    zeroJson ∉ shardNamesFrom k m := by
  intro h
  rcases (mem_shardNamesFrom m k zeroJson).mp h with ⟨i, _, he⟩
  have := numToName_inj he.symm
  omega

theorem lookupF_shardEntriesFrom :
    ∀ (C : List (List Record)) (k : Nat), 1 ≤ k →
      ∀ (i : Nat) (h : i < C.length),
        lookupF (shardEntriesFrom k C) (numToName (k + i))
          = some (.list (C.get ⟨i, h⟩)) := by
  intro C
  induction C with
  | nil => intro k _ i h; simp at h
  | cons c C ih =>
    intro k hk i h
    show lookupF ((numToName k, JVal.list c) :: shardEntriesFrom (k + 1) C)
        (numToName (k + i)) = _
    unfold lookupF
    cases i with
    | zero =>
      rw [if_pos (by rw [Nat.add_zero])]
      rfl
    | succ i =>
      have hne : ¬(numToName k = numToName (k + (i + 1))) := by
        intro hh
        have := numToName_inj hh
        omega
      rw [if_neg hne]
      have : k + (i + 1) = (k + 1) + i := by omega
      rw [this]
      exact ih (k + 1) (by omega) i (by simpa using h)

theorem lookupF_shardEntriesFrom_none {C : List (List Record)} {k : Nat}
    {n : Str} (h : ∀ i, i < C.length → n ≠ numToName (k + i)) :
    lookupF (shardEntriesFrom k C) n = none := by
  apply lookupF_none_of_not_mem
  rw [shardEntriesFrom_map_fst]
  intro hmem
  rcases (mem_shardNamesFrom C.length k n).mp hmem with ⟨i, hi, rfl⟩
  exact h i hi rfl

/-! ### Evaluation of aggregation and the record view -/

/-- The record payloads of the listed files, as `open_file(..., list)` reads
them. -/
def contentsOf (files : List (Str × JVal)) (fl : List Str) : List (List Record) :=
  fl.map (fun f => asList ((lookupF files f).getD (.dict emptyDict)))

theorem contentsOf_congr {A B : List (Str × JVal)} {fl : List Str}
    (h : ∀ f ∈ fl, lookupF A f = lookupF B f) :
    contentsOf A fl = contentsOf B fl := by
  unfold contentsOf
  exact List.map_congr_left (fun f hf => by rw [h f hf])

theorem contentsOf_eraseF {files : List (Str × JVal)} {f : Str}
    {fl : List Str} (h : f ∉ fl) :
    contentsOf (eraseF files f) fl = contentsOf files fl :=
  contentsOf_congr (fun g hg =>
    lookupF_eraseF files f g (fun hh => h (hh ▸ hg)))

theorem enumGo_eval :
    ∀ (l : List Str) (st : St),
      (∀ n ∈ l, is_valid_file_name n = true ∨ get_number n true = .ok 0) →
      enumGo l st = (.ok (l.filter is_valid_file_name), st) := by
  intro l
  induction l with
  | nil => intro st _; rfl
  | cons n rest ih =>
    intro st hall
    have hn := hall n (List.mem_cons_self n rest)
    have hrest := fun m hm => hall m (List.mem_cons_of_mem n hm)
    have hstep : enumGo (n :: rest) =
        (if n = newName then do
          unlinkFile n
          enumGo rest
        else if is_valid_file_name n = true then do
          let r ← enumGo rest
          pure (n :: r)
        else
          match get_number n true with
          | .ok k =>
            if k = 0 then enumGo rest
            else do
              M.warn (.invalidFileName n)
              let r ← enumGo rest
              pure (n :: r)
          | .error e => M.throw e) := rfl
    rcases hn with hv | hz
    · rw [hstep, if_neg (valid_ne_newName hv), if_pos hv]
      show (enumGo rest >>= fun r => pure (n :: r)) st = _
      rw [M.bind_apply, ih st hrest]
      rw [List.filter_cons, if_pos hv]
      rfl
    · have hnv := not_valid_of_ok_zero hz
      rw [hstep, if_neg (ok_zero_ne_newName hz), if_neg (by simp [hnv]), hz]
      show (if (0 : Int) = 0 then enumGo rest
        else do
          M.warn (.invalidFileName n)
          let r ← enumGo rest
          pure (n :: r)) st = _
      rw [if_pos rfl, ih st hrest, List.filter_cons, if_neg (by simp [hnv])]

theorem sumLens_eval :
    ∀ (fl : List Str) (st : St),
      sumLens fl st
        = (.ok ((contentsOf st.fs.files fl).map List.length).sum, st) := by
  intro fl
  induction fl with
  | nil => intro st; rfl
  | cons f rest ih =>
    intro st
    have h1 : sumLens (f :: rest) st =
        (sumLens rest >>= fun r => pure
          ((get_items (.list (asList ((lookupF st.fs.files f).getD
            (.dict emptyDict))))).length + r)) st := rfl
    rw [h1, M.bind_apply, ih st]
    show ((Except.ok ((get_items (JVal.list (asList ((lookupF st.fs.files f).getD
        (JVal.dict emptyDict))))).length
      + ((contentsOf st.fs.files rest).map List.length).sum) :
        Except Err Nat), st) = _
    unfold contentsOf
    rw [List.map_cons, List.map_cons, List.sum_cons]
    rfl

theorem recordsList_eval :
    ∀ (fl : List Str) (st : St),
      recordsList fl st = (.ok (contentsOf st.fs.files fl).flatten, st) := by
  intro fl
  induction fl with
  | nil => intro st; rfl
  | cons f rest ih =>
    intro st
    have h1 : recordsList (f :: rest) st =
        (recordsList rest >>= fun r => pure
          (get_items (.list (asList ((lookupF st.fs.files f).getD
            (.dict emptyDict)))) ++ r)) st := rfl
    rw [h1, M.bind_apply, ih st]
    show ((Except.ok (get_items (JVal.list (asList ((lookupF st.fs.files f).getD
        (JVal.dict emptyDict))))
      ++ (contentsOf st.fs.files rest).flatten) :
        Except Err (List Record)), st) = _
    unfold contentsOf
    rw [List.map_cons, List.flatten_cons]
    rfl

/-! ### Execution of the staging loops of `fix` -/

theorem fill_file_eval (stack : List Record) (idx : Nat) (endFlag : Bool)
    (st : St) :
    fill_file stack idx endFlag st =
      if stack ≠ [] ∧ (endFlag = true ∨ stack.length > MAX_QUOTES_PER_FILE) then
        (.ok (stack.drop MAX_QUOTES_PER_FILE, idx + 1, true),
         ⟨{ st.fs with newFiles := setF st.fs.newFiles (numToName idx) (.list (stack.take MAX_QUOTES_PER_FILE)) }, st.log⟩)
      else (.ok (stack, idx, false), st) := by
  unfold fill_file
  split
  · rfl
  · rfl

/-- Assembling flushed full chunks and the final remainder yields exactly
the canonical chunking. -/
theorem chunksAll_assemble :
    ∀ (L : List (List Record)) (s' : List Record),
      (∀ c ∈ L, c.length = MAX_QUOTES_PER_FILE) →
      s'.length ≤ MAX_QUOTES_PER_FILE →
      chunksAll (L.flatten ++ s') = L ++ (if s' = [] then [] else [s']) := by
  intro L
  induction L with
  | nil =>
    intro s' _ hle
    rw [List.flatten_nil, List.nil_append, List.nil_append]
    by_cases hs : s' = []
    · rw [if_pos hs, hs, chunksAll_nil]
    · rw [if_neg hs, chunksAll_small hs hle]
  | cons c L ih =>
    intro s' hsz hle
    rw [List.flatten_cons, List.append_assoc,
      chunksAll_chunk _ (hsz c (List.mem_cons_self c L)),
      ih s' (fun d hd => hsz d (List.mem_cons_of_mem c hd)) hle,
      List.cons_append]

theorem fillLoopAux_spec :
    ∀ (fuel : Nat) (stack : List Record) (idx : Nat) (st : St),
      stack.length < fuel → 1 ≤ idx →
      (∀ i, idx ≤ i → numToName i ∉ st.fs.newFiles.map Prod.fst) →
      ∃ (L : List (List Record)) (stack' : List Record),
        fillLoopAux fuel stack idx st
          = (.ok (stack', idx + L.length),
             ⟨{ st.fs with
                newFiles := st.fs.newFiles ++ shardEntriesFrom idx L },
              st.log⟩) ∧
        L.flatten ++ stack' = stack ∧
        (∀ c ∈ L, c.length = MAX_QUOTES_PER_FILE) ∧
        stack'.length ≤ MAX_QUOTES_PER_FILE := by
  intro fuel
  induction fuel with
  | zero => intro stack idx st h; omega
  | succ fuel ih =>
    intro stack idx st hf hidx hfresh
    have hstep : fillLoopAux (fuel + 1) stack idx =
        if stack ≠ [] ∧ stack.length > MAX_QUOTES_PER_FILE then do
          writeNew (numToName idx) (.list (stack.take MAX_QUOTES_PER_FILE))
          fillLoopAux fuel (stack.drop MAX_QUOTES_PER_FILE) (idx + 1)
        else pure (stack, idx) := rfl
    by_cases hc : stack ≠ [] ∧ stack.length > MAX_QUOTES_PER_FILE
    · have hlen : stack.length > MAX_QUOTES_PER_FILE := hc.2
      have htk : (stack.take MAX_QUOTES_PER_FILE).length
          = MAX_QUOTES_PER_FILE := by
        rw [List.length_take]
        omega
      have hw : writeNew (numToName idx)
            (.list (stack.take MAX_QUOTES_PER_FILE)) st
          = (.ok (), ⟨{ st.fs with newFiles := st.fs.newFiles
              ++ [(numToName idx,
                   JVal.list (stack.take MAX_QUOTES_PER_FILE))] }, st.log⟩) := by
        rw [writeNew_eval,
          setF_append_of_not_mem (hfresh idx (le_refl idx))]
      have hfresh2 : ∀ i, idx + 1 ≤ i →
          numToName i ∉ (st.fs.newFiles
            ++ [(numToName idx,
                 JVal.list (stack.take MAX_QUOTES_PER_FILE))]).map Prod.fst := by
        intro i hi hmem
        rw [List.map_append] at hmem
        rcases List.mem_append.mp hmem with hm | hm
        · exact hfresh i (by omega) hm
        · simp only [List.map_cons, List.map_nil, List.mem_singleton] at hm
          have := numToName_inj hm
          omega
      rcases ih (stack.drop MAX_QUOTES_PER_FILE) (idx + 1)
          ⟨{ st.fs with newFiles := st.fs.newFiles
              ++ [(numToName idx,
                   JVal.list (stack.take MAX_QUOTES_PER_FILE))] }, st.log⟩
          (by rw [List.length_drop]; unfold MAX_QUOTES_PER_FILE at *; omega)
          (by omega) hfresh2 with ⟨L', stack', heq, hflat, hsz, hle⟩
      refine ⟨stack.take MAX_QUOTES_PER_FILE :: L', stack', ?_, ?_, ?_, hle⟩
      · rw [hstep, if_pos hc]
        have hrun : (writeNew (numToName idx)
              (.list (stack.take MAX_QUOTES_PER_FILE)) >>= fun _ =>
            fillLoopAux fuel (stack.drop MAX_QUOTES_PER_FILE) (idx + 1)) st
            = fillLoopAux fuel (stack.drop MAX_QUOTES_PER_FILE) (idx + 1)
              ⟨{ st.fs with newFiles := st.fs.newFiles
                  ++ [(numToName idx,
                       JVal.list (stack.take MAX_QUOTES_PER_FILE))] },
               st.log⟩ := by
          rw [M.bind_apply, hw]
        rw [hrun, heq]
        have hidxeq : idx + 1 + L'.length
            = idx + (stack.take MAX_QUOTES_PER_FILE :: L').length := by
          rw [List.length_cons]
          omega
        have hnf : (st.fs.newFiles
              ++ [(numToName idx, JVal.list (stack.take MAX_QUOTES_PER_FILE))])
              ++ shardEntriesFrom (idx + 1) L'
            = st.fs.newFiles
              ++ shardEntriesFrom idx (stack.take MAX_QUOTES_PER_FILE :: L') := by
          rw [List.append_assoc]
          rfl
        rw [hidxeq, hnf]
      · rw [List.flatten_cons, List.append_assoc, hflat,
          List.take_append_drop]
      · intro c hcm
        rcases List.mem_cons.mp hcm with rfl | hcm'
        · exact htk
        · exact hsz c hcm'
    · refine ⟨[], stack, ?_, by simp, by simp, ?_⟩
      · rw [hstep, if_neg hc]
        show (Except.ok (stack, idx), st) = _
        rw [show shardEntriesFrom idx ([] : List (List Record)) = [] from rfl,
          List.append_nil]
        rfl
      · push_neg at hc
        by_cases hs : stack = []
        · rw [hs]
          simp
        · have := hc hs
          omega

theorem drainGo_spec :
    ∀ (fl : List Str) (stack : List Record) (idx : Nat) (st : St),
      fl.Nodup → 1 ≤ idx →
      (∀ i, idx ≤ i → numToName i ∉ st.fs.newFiles.map Prod.fst) →
      ∃ (CD : List (List Record)) (stack' : List Record),
        drainGo fl stack idx st
          = (.ok (stack', idx + CD.length),
             ⟨{ st.fs with
                files := eraseAllF st.fs.files fl,
                newFiles := st.fs.newFiles ++ shardEntriesFrom idx CD },
              st.log⟩) ∧
        CD.flatten ++ stack' = stack ++ (contentsOf st.fs.files fl).flatten ∧
        (∀ c ∈ CD, c.length = MAX_QUOTES_PER_FILE) := by
  intro fl
  induction fl with
  | nil =>
    intro stack idx st _ _ _
    refine ⟨[], stack, ?_, by simp [contentsOf], by simp⟩
    show (Except.ok (stack, idx), st) = _
    rw [show shardEntriesFrom idx ([] : List (List Record)) = [] from rfl,
      List.append_nil]
    rfl
  | cons f rest ih =>
    intro stack idx st hnd hidx hfresh
    rw [List.nodup_cons] at hnd
    have h1 : drainGo (f :: rest) stack idx st
        = (fill_file (stack ++ asList ((lookupF st.fs.files f).getD
              (.dict emptyDict))) idx false >>= fun r =>
            unlinkFile f >>= fun _ =>
            drainGo rest r.1 r.2.1) st := rfl
    have hdata : contentsOf st.fs.files (f :: rest)
        = asList ((lookupF st.fs.files f).getD (.dict emptyDict))
          :: contentsOf st.fs.files rest := rfl
    by_cases hM : (stack ++ asList ((lookupF st.fs.files f).getD
        (.dict emptyDict))).length > MAX_QUOTES_PER_FILE
    · -- one full chunk is flushed
      have hfull : stack ++ asList ((lookupF st.fs.files f).getD
          (.dict emptyDict)) ≠ [] := by
        intro hh
        rw [hh] at hM
        exact absurd hM (by decide)
      have hcond : (stack ++ asList ((lookupF st.fs.files f).getD
            (.dict emptyDict))) ≠ [] ∧
          ((false : Bool) = true ∨
            (stack ++ asList ((lookupF st.fs.files f).getD
              (.dict emptyDict))).length > MAX_QUOTES_PER_FILE) :=
        ⟨hfull, Or.inr hM⟩
      have htk : ((stack ++ asList ((lookupF st.fs.files f).getD
          (.dict emptyDict))).take MAX_QUOTES_PER_FILE).length
          = MAX_QUOTES_PER_FILE := by
        rw [List.length_take]
        omega
      have hfill := fill_file_eval (stack ++ asList ((lookupF st.fs.files f).getD
        (.dict emptyDict))) idx false st
      rw [if_pos hcond,
        setF_append_of_not_mem (hfresh idx (le_refl idx))] at hfill
      have hfresh2 : ∀ i, idx + 1 ≤ i →
          numToName i ∉ (st.fs.newFiles
            ++ [(numToName idx,
                 JVal.list ((stack ++ asList ((lookupF st.fs.files f).getD
                   (.dict emptyDict))).take MAX_QUOTES_PER_FILE))]).map
              Prod.fst := by
        intro i hi hmem
        rw [List.map_append] at hmem
        rcases List.mem_append.mp hmem with hm | hm
        · exact hfresh i (by omega) hm
        · simp only [List.map_cons, List.map_nil, List.mem_singleton] at hm
          have := numToName_inj hm
          omega
      rcases ih ((stack ++ asList ((lookupF st.fs.files f).getD
            (.dict emptyDict))).drop MAX_QUOTES_PER_FILE) (idx + 1)
          ⟨{ st.fs with
             files := eraseF st.fs.files f,
             newFiles := st.fs.newFiles
               ++ [(numToName idx,
                    JVal.list ((stack ++ asList ((lookupF st.fs.files f).getD
                      (.dict emptyDict))).take MAX_QUOTES_PER_FILE))] },
           st.log⟩
          hnd.2 (by omega) hfresh2 with ⟨CD', stack', heq, hflat, hsz⟩
      refine ⟨(stack ++ asList ((lookupF st.fs.files f).getD
          (.dict emptyDict))).take MAX_QUOTES_PER_FILE :: CD', stack',
        ?_, ?_, ?_⟩
      · rw [h1, M.bind_apply, hfill]
        show (unlinkFile f >>= fun _ => drainGo rest
            ((stack ++ asList ((lookupF st.fs.files f).getD
              (.dict emptyDict))).drop MAX_QUOTES_PER_FILE) (idx + 1))
            ⟨{ st.fs with newFiles := st.fs.newFiles
                ++ [(numToName idx,
                     JVal.list ((stack ++ asList ((lookupF st.fs.files f).getD
                       (.dict emptyDict))).take MAX_QUOTES_PER_FILE))] },
             st.log⟩ = _
        rw [M.bind_apply, unlinkFile_eval]
        show drainGo rest
            ((stack ++ asList ((lookupF st.fs.files f).getD
              (.dict emptyDict))).drop MAX_QUOTES_PER_FILE) (idx + 1)
            ⟨{ st.fs with
               files := eraseF st.fs.files f,
               newFiles := st.fs.newFiles
                 ++ [(numToName idx,
                      JVal.list ((stack ++ asList ((lookupF st.fs.files f).getD
                        (.dict emptyDict))).take MAX_QUOTES_PER_FILE))] },
             st.log⟩ = _
        rw [heq]
        have hidxeq : idx + 1 + CD'.length
            = idx + (((stack ++ asList ((lookupF st.fs.files f).getD
                (.dict emptyDict))).take MAX_QUOTES_PER_FILE) :: CD').length := by
          rw [List.length_cons]
          omega
        have hfe : eraseAllF (eraseF st.fs.files f) rest
            = eraseAllF st.fs.files (f :: rest) := rfl
        have hnf : (st.fs.newFiles
              ++ [(numToName idx,
                   JVal.list ((stack ++ asList ((lookupF st.fs.files f).getD
                     (.dict emptyDict))).take MAX_QUOTES_PER_FILE))])
              ++ shardEntriesFrom (idx + 1) CD'
            = st.fs.newFiles
              ++ shardEntriesFrom idx
                  (((stack ++ asList ((lookupF st.fs.files f).getD
                    (.dict emptyDict))).take MAX_QUOTES_PER_FILE) :: CD') := by
          rw [List.append_assoc]
          rfl
        rw [hidxeq, hfe, hnf]
      · rw [contentsOf_eraseF hnd.1] at hflat
        rw [List.flatten_cons, List.append_assoc, hflat, hdata,
          List.flatten_cons, ← List.append_assoc, List.take_append_drop,
          List.append_assoc]
      · intro c hcm
        rcases List.mem_cons.mp hcm with rfl | hcm'
        · exact htk
        · exact hsz c hcm'
    · -- nothing flushed for this file
      have hcond : ¬((stack ++ asList ((lookupF st.fs.files f).getD
            (.dict emptyDict))) ≠ [] ∧
          ((false : Bool) = true ∨
            (stack ++ asList ((lookupF st.fs.files f).getD
              (.dict emptyDict))).length > MAX_QUOTES_PER_FILE)) := by
        rintro ⟨_, h2 | h2⟩
        · exact absurd h2 (by simp)
        · exact hM h2
      have hfill := fill_file_eval (stack ++ asList ((lookupF st.fs.files f).getD
        (.dict emptyDict))) idx false st
      rw [if_neg hcond] at hfill
      rcases ih (stack ++ asList ((lookupF st.fs.files f).getD
            (.dict emptyDict))) idx
          ⟨{ st.fs with files := eraseF st.fs.files f }, st.log⟩
          hnd.2 hidx (fun i hi => hfresh i hi) with ⟨CD', stack', heq, hflat, hsz⟩
      refine ⟨CD', stack', ?_, ?_, hsz⟩
      · rw [h1, M.bind_apply, hfill]
        show (unlinkFile f >>= fun _ => drainGo rest
            (stack ++ asList ((lookupF st.fs.files f).getD
              (.dict emptyDict))) idx) st = _
        rw [M.bind_apply, unlinkFile_eval]
        show drainGo rest
            (stack ++ asList ((lookupF st.fs.files f).getD
              (.dict emptyDict))) idx
            ⟨{ st.fs with files := eraseF st.fs.files f }, st.log⟩ = _
        rw [heq]
        have hfe : eraseAllF (eraseF st.fs.files f) rest
            = eraseAllF st.fs.files (f :: rest) := rfl
        rw [hfe]
      · rw [contentsOf_eraseF hnd.1] at hflat
        rw [hflat, hdata, List.flatten_cons, List.append_assoc]

/-! ### Helper facts for the main characterization of `fix` -/

/-- The `dict` coercion then the `list` coercion read the same records as
the `list` coercion alone (what makes the in-place header rewrite of `fix`
invisible to the drain). -/
theorem asList_dict_asDict (v : JVal) : asList (.dict (asDict v)) = asList v := by
  cases v with
  | list L => rfl
  | dict d => rfl

theorem zeroJson_parse0 : get_number zeroJson true = .ok 0 := rfl

theorem zeroJson_not_valid : is_valid_file_name zeroJson = false := by decide

theorem lookupF_eraseAllF :
    ∀ (fl : List Str) (l : List (Str × JVal)) (n : Str), n ∉ fl →
      lookupF (eraseAllF l fl) n = lookupF l n := by
  intro fl
  induction fl with
  | nil => intro l n _; rfl
  | cons f rest ih =>
    intro l n hn
    rw [List.mem_cons] at hn
    push_neg at hn
    show lookupF (eraseAllF (eraseF l f) rest) n = _
    rw [ih _ n hn.2, lookupF_eraseF l f n hn.1]

theorem mem_setF :
    ∀ {l : List (Str × JVal)} {n : Str} {v : JVal} {p : Str × JVal},
      p ∈ setF l n v → p ∈ l ∨ p = (n, v) := by
  intro l
  induction l with
  | nil =>
    intro n v p hp
    rcases List.mem_singleton.mp hp with rfl
    exact Or.inr rfl
  | cons q rest ih =>
    intro n v p hp
    have hp2 : p ∈ (if q.1 = n then (n, v) :: rest else q :: setF rest n v) :=
      hp
    by_cases hq : q.1 = n
    · rw [if_pos hq] at hp2
      rcases List.mem_cons.mp hp2 with rfl | hp'
      · exact Or.inr rfl
      · exact Or.inl (List.mem_cons_of_mem q hp')
    · rw [if_neg hq] at hp2
      rcases List.mem_cons.mp hp2 with rfl | hp'
      · exact Or.inl (List.mem_cons_self p rest)
      · rcases ih hp' with h | h
        · exact Or.inl (List.mem_cons_of_mem q h)
        · exact Or.inr h

/-- Renaming a block of files with fresh pairwise-distinct names appends
them. -/
theorem foldl_setF_fresh :
    ∀ (E : List (Str × JVal)) (l : List (Str × JVal)),
      (E.map Prod.fst).Nodup →
      (∀ n ∈ E.map Prod.fst, n ∉ l.map Prod.fst) →
      E.foldl (fun acc p => setF acc p.1 p.2) l = l ++ E := by
  intro E
  induction E with
  | nil => intro l _ _; simp
  | cons e E ih =>
    intro l hnd hfresh
    rw [List.map_cons, List.nodup_cons] at hnd
    show E.foldl (fun acc p => setF acc p.1 p.2) (setF l e.1 e.2) = _
    rw [setF_append_of_not_mem
      (hfresh e.1 (by rw [List.map_cons]; exact List.mem_cons_self _ _)) e.2]
    rw [ih (l ++ [e]) hnd.2 ?_]
    · rw [List.append_assoc]
      rfl
    · intro n hn hmem
      rw [List.map_append] at hmem
      rcases List.mem_append.mp hmem with hm | hm
      · exact hfresh n (by rw [List.map_cons]; exact List.mem_cons_of_mem _ hn) hm
      · simp only [List.map_cons, List.map_nil, List.mem_singleton] at hm
        exact hnd.1 (hm ▸ hn)

theorem shardNamesFrom_append :
    ∀ (a k b : Nat),
      shardNamesFrom k (a + b) = shardNamesFrom k a ++ shardNamesFrom (k + a) b := by
  intro a
  induction a with
  | zero =>
    intro k b
    simp [shardNamesFrom]
  | succ a ih =>
    intro k b
    show shardNamesFrom k (a + 1 + b) = _
    have h1 : a + 1 + b = (a + b) + 1 := by omega
    rw [h1]
    show numToName k :: shardNamesFrom (k + 1) (a + b) = _
    rw [ih (k + 1) b]
    show _ = (numToName k :: shardNamesFrom (k + 1) a)
      ++ shardNamesFrom (k + (a + 1)) b
    rw [List.cons_append]
    have h2 : k + 1 + a = k + (a + 1) := by omega
    rw [h2]

theorem shardNamesFrom_length :
    ∀ (m k : Nat), (shardNamesFrom k m).length = m := by
  intro m
  induction m with
  | zero => intro k; rfl
  | succ m ih =>
    intro k
    show (numToName k :: shardNamesFrom (k + 1) m).length = m + 1
    rw [List.length_cons, ih (k + 1)]

/-! ### The folder listing after the rename loop of `fix` -/

/-- Shape and content of the folder after `renameAll` moves the staged
files `1.json … j.json, 0.json, (j+1).json … m.json` into a residue `F3`
that holds only header-numbered (skippable) names. -/
theorem renamed_files_spec (F3 : List (Str × JVal))
    (CD CL : List (List Record)) (hdrv : JVal)
    (h3nd : (F3.map Prod.fst).Nodup)
    (h3junk : ∀ p ∈ F3, get_number p.1 true = .ok 0) :
    ∀ (G : List (Str × JVal)),
      G = ((shardEntriesFrom 1 CD ++ ([(zeroJson, hdrv)]
            ++ shardEntriesFrom (1 + CD.length) CL)).foldl
          (fun acc p => setF acc p.1 p.2) F3) →
      ((G.map Prod.fst).filter is_valid_file_name
        = shardNamesFrom 1 (CD ++ CL).length) ∧
      (∀ (i : Nat) (h : i < (CD ++ CL).length),
        lookupF G (numToName (1 + i))
          = some (.list ((CD ++ CL).get ⟨i, h⟩))) ∧
      lookupF G zeroJson = some hdrv ∧
      (G.map Prod.fst).Nodup ∧
      (∀ p ∈ G, ¬(is_valid_file_name p.1 = true) →
        get_number p.1 true = .ok 0) ∧
      (∀ n, ¬(is_valid_file_name n = true) → n ≠ zeroJson →
        lookupF G n = lookupF F3 n) ∧
      (∀ n, is_valid_file_name n = true →
        (∀ i, i < (CD ++ CL).length → n ≠ numToName (1 + i)) →
        lookupF G n = none) := by
  intro G hG
  have h3novalid : ∀ n ∈ F3.map Prod.fst, ¬(is_valid_file_name n = true) := by
    intro n hn
    rcases List.mem_map.mp hn with ⟨p, hp, rfl⟩
    rw [not_valid_of_ok_zero (h3junk p hp)]
    simp
  have hE1names : (shardEntriesFrom 1 CD).map Prod.fst
      = shardNamesFrom 1 CD.length := shardEntriesFrom_map_fst CD 1
  have hE2names : (shardEntriesFrom (1 + CD.length) CL).map Prod.fst
      = shardNamesFrom (1 + CD.length) CL.length :=
    shardEntriesFrom_map_fst CL (1 + CD.length)
  have hE1valid : ∀ n ∈ (shardEntriesFrom 1 CD).map Prod.fst,
      is_valid_file_name n = true := by
    rw [hE1names]
    exact shardNamesFrom_valid (by omega)
  have hE2valid : ∀ n ∈ (shardEntriesFrom (1 + CD.length) CL).map Prod.fst,
      is_valid_file_name n = true := by
    rw [hE2names]
    exact shardNamesFrom_valid (by omega)
  have hE1nd : ((shardEntriesFrom 1 CD).map Prod.fst).Nodup := by
    rw [hE1names]
    exact shardNamesFrom_nodup (by omega)
  have hE2nd : ((shardEntriesFrom (1 + CD.length) CL).map Prod.fst).Nodup := by
    rw [hE2names]
    exact shardNamesFrom_nodup (by omega)
  have hE1E2disj : ∀ n ∈ (shardEntriesFrom (1 + CD.length) CL).map Prod.fst,
      n ∉ (shardEntriesFrom 1 CD).map Prod.fst := by
    rw [hE1names, hE2names]
    intro n hn2 hn1
    rcases (mem_shardNamesFrom _ _ n).mp hn1 with ⟨i, hi, rfl⟩
    rcases (mem_shardNamesFrom _ _ _).mp hn2 with ⟨j, hj, he⟩
    have := numToName_inj he
    omega
  have hzero_notE1 : zeroJson ∉ (shardEntriesFrom 1 CD).map Prod.fst := by
    rw [hE1names]
    exact zeroJson_not_mem_shardNamesFrom (by omega)
  have hzero_notE2 : zeroJson
      ∉ (shardEntriesFrom (1 + CD.length) CL).map Prod.fst := by
    rw [hE2names]
    exact zeroJson_not_mem_shardNamesFrom (by omega)
  have hvalid_notF3 : ∀ n, is_valid_file_name n = true →
      n ∉ F3.map Prod.fst :=
    fun n hv hn => (h3novalid n hn) hv
  -- phase 1: the staged data shards written during the drain are appended
  have hfold1 : (shardEntriesFrom 1 CD).foldl
      (fun acc p => setF acc p.1 p.2) F3 = F3 ++ shardEntriesFrom 1 CD :=
    foldl_setF_fresh _ F3 hE1nd
      (fun n hn => hvalid_notF3 n (hE1valid n hn))
  -- phase 2 and 3 depend on whether the residue still holds `0.json`
  have hGsplit : G = (shardEntriesFrom (1 + CD.length) CL).foldl
      (fun acc p => setF acc p.1 p.2)
      (setF (F3 ++ shardEntriesFrom 1 CD) zeroJson hdrv) := by
    rw [hG, List.foldl_append, hfold1]
    rfl
  by_cases hz : zeroJson ∈ F3.map Prod.fst
  · -- the header was rewritten in place and not drained: replace it
    have hset : setF (F3 ++ shardEntriesFrom 1 CD) zeroJson hdrv
        = setF F3 zeroJson hdrv ++ shardEntriesFrom 1 CD :=
      setF_append_left hz _ hdrv
    have hkeysSet : (setF F3 zeroJson hdrv).map Prod.fst = F3.map Prod.fst :=
      keys_setF_of_mem hz hdrv
    have hfold3 : G = (setF F3 zeroJson hdrv ++ shardEntriesFrom 1 CD)
        ++ shardEntriesFrom (1 + CD.length) CL := by
      rw [hGsplit, hset]
      apply foldl_setF_fresh _ _ hE2nd
      intro n hn hmem
      rw [List.map_append, hkeysSet] at hmem
      rcases List.mem_append.mp hmem with hm | hm
      · exact hvalid_notF3 n (hE2valid n hn) hm
      · exact hE1E2disj n hn hm
    refine ⟨?_, ?_, ?_, ?_, ?_, ?_, ?_⟩
    · -- K1: valid-name listing
      rw [hfold3, List.map_append, List.map_append, hkeysSet,
        List.filter_append, List.filter_append,
        List.filter_eq_nil_iff.mpr h3novalid,
        List.filter_eq_self.mpr hE1valid,
        List.filter_eq_self.mpr hE2valid,
        hE1names, hE2names, List.nil_append, List.length_append,
        shardNamesFrom_append CD.length 1 CL.length]
    · -- K2: shard lookups
      intro i h
      rw [hfold3, List.append_assoc]
      have hnotset : numToName (1 + i) ∉ (setF F3 zeroJson hdrv).map Prod.fst := by
        rw [hkeysSet]
        exact hvalid_notF3 _ (is_valid_numToName (by omega))
      rw [lookupF_append_of_not_left hnotset]
      by_cases hiCD : i < CD.length
      · rw [lookupF_append,
          lookupF_shardEntriesFrom CD 1 (by omega) i hiCD]
        have : (CD ++ CL).get ⟨i, h⟩ = CD.get ⟨i, hiCD⟩ := by
          simp only [List.get_eq_getElem]
          exact List.getElem_append_left hiCD
        rw [this]
      · have hnot1 : lookupF (shardEntriesFrom 1 CD) (numToName (1 + i))
            = none := by
          apply lookupF_shardEntriesFrom_none
          intro j hj he
          have := numToName_inj he
          omega
        rw [lookupF_append, hnot1]
        have hlen : i - CD.length < CL.length := by
          rw [List.length_append] at h
          omega
        have he : (1 : Nat) + i = (1 + CD.length) + (i - CD.length) := by
          omega
        rw [he, lookupF_shardEntriesFrom CL (1 + CD.length) (by omega)
          (i - CD.length) hlen]
        have : (CD ++ CL).get ⟨i, h⟩ = CL.get ⟨i - CD.length, hlen⟩ := by
          simp only [List.get_eq_getElem]
          exact List.getElem_append_right (by omega)
        rw [this]
    · -- K3: the header
      rw [hfold3, List.append_assoc,
        lookupF_append, lookupF_setF]
      rw [if_pos rfl]
    · -- K5: no duplicate names
      rw [hfold3, List.map_append, List.map_append, hkeysSet]
      rw [List.nodup_append, List.nodup_append]
      refine ⟨⟨h3nd, hE1nd, ?_⟩, hE2nd, ?_⟩
      · intro a ha hb
        exact hvalid_notF3 a (hE1valid a hb) ha
      · intro a ha hb
        rw [List.mem_append] at ha
        rcases ha with ha | ha
        · exact hvalid_notF3 a (hE2valid a hb) ha
        · exact hE1E2disj a hb ha
    · -- K4: every remaining non-shard name is header-numbered
      intro p hp hnv
      rw [hfold3] at hp
      rcases List.mem_append.mp hp with hp' | hp'
      · rcases List.mem_append.mp hp' with hp'' | hp''
        · rcases mem_setF hp'' with hmem | rfl
          · exact h3junk p hmem
          · exact zeroJson_parse0
        · exact absurd (hE1valid p.1 (List.mem_map_of_mem Prod.fst hp'')) hnv
      · exact absurd (hE2valid p.1 (List.mem_map_of_mem Prod.fst hp')) hnv
    · -- K6: junk lookups unchanged
      intro n hnv hnz
      rw [hfold3, List.append_assoc,
        lookupF_append, lookupF_setF, if_neg (fun hh => hnz hh.symm)]
      have hnotE : lookupF (shardEntriesFrom 1 CD
          ++ shardEntriesFrom (1 + CD.length) CL) n = none := by
        apply lookupF_none_of_not_mem
        rw [List.map_append]
        intro hmem
        rcases List.mem_append.mp hmem with hm | hm
        · exact hnv (hE1valid n hm)
        · exact hnv (hE2valid n hm)
      rw [hnotE]
      cases hl : lookupF F3 n with
      | none => rfl
      | some v => rfl
    · -- K7: no other shard-named file exists
      intro n hv hnot
      rw [hfold3, List.append_assoc,
        lookupF_append, lookupF_setF,
        if_neg (by
          intro hh
          rw [← hh] at hv
          exact absurd hv (by rw [zeroJson_not_valid]; simp)),
        lookupF_none_of_not_mem (hvalid_notF3 n hv)]
      apply lookupF_none_of_not_mem
      rw [List.map_append, hE1names, hE2names]
      intro hmem
      rcases List.mem_append.mp hmem with hm | hm
      · rcases (mem_shardNamesFrom _ _ n).mp hm with ⟨i, hi, rfl⟩
        exact hnot i (by rw [List.length_append]; omega) rfl
      · rcases (mem_shardNamesFrom _ _ n).mp hm with ⟨i, hi, rfl⟩
        exact hnot (CD.length + i) (by rw [List.length_append]; omega)
          (by rw [show (1 : Nat) + (CD.length + i) = 1 + CD.length + i from
            by omega])
  · -- the header file was drained away: the staged header is appended
    have hset : setF (F3 ++ shardEntriesFrom 1 CD) zeroJson hdrv
        = (F3 ++ shardEntriesFrom 1 CD) ++ [(zeroJson, hdrv)] := by
      apply setF_append_of_not_mem
      rw [List.map_append]
      intro hmem
      rcases List.mem_append.mp hmem with hm | hm
      · exact hz hm
      · exact hzero_notE1 hm
    have hfold3 : G = ((F3 ++ shardEntriesFrom 1 CD) ++ [(zeroJson, hdrv)])
        ++ shardEntriesFrom (1 + CD.length) CL := by
      rw [hGsplit, hset]
      apply foldl_setF_fresh _ _ hE2nd
      intro n hn hmem
      rw [List.map_append, List.map_append] at hmem
      rcases List.mem_append.mp hmem with hm | hm
      · rcases List.mem_append.mp hm with hm' | hm'
        · exact hvalid_notF3 n (hE2valid n hn) hm'
        · exact hE1E2disj n hn hm'
      · simp only [List.map_cons, List.map_nil, List.mem_singleton] at hm
        rw [hm] at hn
        exact hzero_notE2 hn
    refine ⟨?_, ?_, ?_, ?_, ?_, ?_, ?_⟩
    · rw [hfold3, List.map_append, List.map_append, List.map_append,
        List.filter_append, List.filter_append, List.filter_append,
        List.filter_eq_nil_iff.mpr h3novalid,
        List.filter_eq_self.mpr hE1valid,
        List.filter_eq_self.mpr hE2valid]
      have hzf : List.filter is_valid_file_name
          ([(zeroJson, hdrv)].map Prod.fst) = [] := by
        simp [zeroJson_not_valid]
      rw [hzf, hE1names, hE2names, List.nil_append, List.append_nil,
        List.length_append, shardNamesFrom_append CD.length 1 CL.length]
    · intro i h
      rw [hfold3, List.append_assoc, List.append_assoc]
      have hnotF3 : numToName (1 + i) ∉ F3.map Prod.fst :=
        hvalid_notF3 _ (is_valid_numToName (by omega))
      rw [lookupF_append_of_not_left hnotF3]
      by_cases hiCD : i < CD.length
      · rw [lookupF_append,
          lookupF_shardEntriesFrom CD 1 (by omega) i hiCD]
        have : (CD ++ CL).get ⟨i, h⟩ = CD.get ⟨i, hiCD⟩ := by
          simp only [List.get_eq_getElem]
          exact List.getElem_append_left hiCD
        rw [this]
      · have hnot1 : lookupF (shardEntriesFrom 1 CD) (numToName (1 + i))
            = none := by
          apply lookupF_shardEntriesFrom_none
          intro j hj he
          have := numToName_inj he
          omega
        rw [lookupF_append, hnot1]
        have hnotz : ¬(zeroJson = numToName (1 + i)) := by
          intro hh
          have := numToName_inj hh
          omega
        rw [show lookupF ([(zeroJson, hdrv)]
            ++ shardEntriesFrom (1 + CD.length) CL) (numToName (1 + i))
          = if zeroJson = numToName (1 + i) then some hdrv
            else lookupF (shardEntriesFrom (1 + CD.length) CL)
              (numToName (1 + i)) from rfl, if_neg hnotz]
        have hlen : i - CD.length < CL.length := by
          rw [List.length_append] at h
          omega
        have he : (1 : Nat) + i = (1 + CD.length) + (i - CD.length) := by
          omega
        rw [he, lookupF_shardEntriesFrom CL (1 + CD.length) (by omega)
          (i - CD.length) hlen]
        have : (CD ++ CL).get ⟨i, h⟩ = CL.get ⟨i - CD.length, hlen⟩ := by
          simp only [List.get_eq_getElem]
          exact List.getElem_append_right (by omega)
        rw [this]
    · rw [hfold3, List.append_assoc, List.append_assoc,
        lookupF_append_of_not_left hz,
        lookupF_append_of_not_left hzero_notE1]
      rfl
    · rw [hfold3, List.map_append, List.map_append, List.map_append]
      simp only [List.map_cons, List.map_nil]
      rw [List.nodup_append, List.nodup_append, List.nodup_append]
      refine ⟨⟨⟨h3nd, hE1nd, ?_⟩, List.nodup_singleton _, ?_⟩, hE2nd, ?_⟩
      · intro a ha hb
        exact hvalid_notF3 a (hE1valid a hb) ha
      · intro a ha hb
        simp only [List.mem_singleton] at hb
        subst hb
        rw [List.mem_append] at ha
        rcases ha with ha | ha
        · exact hz ha
        · exact hzero_notE1 ha
      · intro a ha hb
        rw [List.mem_append] at ha
        rcases ha with ha | ha
        · rw [List.mem_append] at ha
          rcases ha with ha | ha
          · exact hvalid_notF3 a (hE2valid a hb) ha
          · exact hE1E2disj a hb ha
        · simp only [List.mem_singleton] at ha
          subst ha
          exact hzero_notE2 hb
    · intro p hp hnv
      rw [hfold3] at hp
      rcases List.mem_append.mp hp with hp' | hp'
      · rcases List.mem_append.mp hp' with hp'' | hp''
        · rcases List.mem_append.mp hp'' with hm | hm
          · exact h3junk p hm
          · exact absurd (hE1valid p.1 (List.mem_map_of_mem Prod.fst hm)) hnv
        · rcases List.mem_singleton.mp hp'' with rfl
          exact zeroJson_parse0
      · exact absurd (hE2valid p.1 (List.mem_map_of_mem Prod.fst hp')) hnv
    · intro n hnv hnz
      rw [hfold3, List.append_assoc, List.append_assoc, lookupF_append]
      have hnotE : lookupF (shardEntriesFrom 1 CD
          ++ ([(zeroJson, hdrv)] ++ shardEntriesFrom (1 + CD.length) CL)) n
          = none := by
        apply lookupF_none_of_not_mem
        rw [List.map_append, List.map_append]
        intro hmem
        rcases List.mem_append.mp hmem with hm | hm
        · exact hnv (hE1valid n hm)
        · rcases List.mem_append.mp hm with hm' | hm'
          · simp only [List.map_cons, List.map_nil,
              List.mem_singleton] at hm'
            exact hnz hm'
          · exact hnv (hE2valid n hm')
      rw [hnotE]
      cases hl : lookupF F3 n with
      | none => rfl
      | some v => rfl
    · intro n hv hnot
      rw [hfold3, List.append_assoc, List.append_assoc,
        lookupF_append_of_not_left (hvalid_notF3 n hv)]
      apply lookupF_none_of_not_mem
      rw [List.map_append, List.map_append, hE1names, hE2names]
      intro hmem
      rcases List.mem_append.mp hmem with hm | hm
      · rcases (mem_shardNamesFrom _ _ n).mp hm with ⟨i, hi, rfl⟩
        exact hnot i (by rw [List.length_append]; omega) rfl
      · rcases List.mem_append.mp hm with hm' | hm'
        · simp only [List.map_cons, List.map_nil, List.mem_singleton] at hm'
          subst hm'
          rw [zeroJson_not_valid] at hv
          exact absurd hv (by simp)
        · rcases (mem_shardNamesFrom _ _ n).mp hm' with ⟨i, hi, rfl⟩
          exact hnot (CD.length + i) (by rw [List.length_append]; omega)
            (by rw [show (1 : Nat) + (CD.length + i) = 1 + CD.length + i from
              by omega])

/-- A successful lookup comes from an entry of the listing. -/
theorem mem_of_lookupF :
    ∀ {l : List (Str × JVal)} {n : Str} {v : JVal},
      lookupF l n = some v → (n, v) ∈ l := by
  intro l
  induction l with
  | nil =>
    intro n v h
    exact absurd h (by simp [lookupF])
  | cons p rest ih =>
    intro n v h
    have h2 : (if p.1 = n then some p.2 else lookupF rest n) = some v := h
    by_cases hp : p.1 = n
    · rw [if_pos hp] at h2
      injection h2 with hv
      exact List.mem_cons.mpr (Or.inl (by rw [← hp, ← hv]))
    · rw [if_neg hp] at h2
      exact List.mem_cons_of_mem p (ih h2)

/-- Records read out of a folder whose payload fields are all
`fix_item`-normalized are themselves normalized. -/
theorem contentsOf_normalized (fs0 : List (Str × JVal)) (fl : List Str)
    (hnorm : ∀ p ∈ fs0, ∀ q ∈ asList p.2, ∀ f ∈ q, fix_item f = f) :
    ∀ q ∈ (contentsOf fs0 fl).flatten, ∀ f ∈ q, fix_item f = f := by
  intro q hq f hf
  rcases List.mem_flatten.mp hq with ⟨c, hc, hqc⟩
  unfold contentsOf at hc
  rcases List.mem_map.mp hc with ⟨g, hg, hfg⟩
  have hqc2 : q ∈ asList ((lookupF fs0 g).getD (.dict emptyDict)) := by
    rw [← hfg] at hqc
    exact hqc
  cases hl : lookupF fs0 g with
  | none =>
    rw [hl] at hqc2
    have hq2 : q ∈ ([] : List Record) := hqc2
    simp at hq2
  | some v =>
    rw [hl] at hqc2
    exact hnorm (g, v) (mem_of_lookupF hl) q hqc2 f hf

/-! ### The main characterization of a successful run of `fix` -/

/-- Forward evaluation of `fix` on a folder whose staging area is empty,
whose listing has no duplicate names, and whose names all parse (valid
shard names or header-numbered files): the run succeeds, rewrites the
folder into the canonical chunking of the record sequence `R`, writes the
recomputed header, and leaves the header-numbered junk files alone. -/
theorem fix_eval (pe hd0 : Bool) (fs0 : List (Str × JVal)) (log0 : List Warn)
    (hnodup : (fs0.map Prod.fst).Nodup)
    (hnames : ∀ n ∈ fs0.map Prod.fst,
      is_valid_file_name n = true ∨ get_number n true = .ok 0) :
    ∃ (R : List Record) (G : List (Str × JVal)),
      (recordsView ⟨⟨pe, fs0, [], hd0⟩, log0⟩).1 = .ok R ∧
      fix ⟨⟨pe, fs0, [], hd0⟩, log0⟩ = (.ok (), ⟨⟨true, G, [], false⟩, log0⟩) ∧
      ((G.map Prod.fst).filter is_valid_file_name
        = shardNamesFrom 1 (chunksAll R).length) ∧
      (∀ (i : Nat) (h : i < (chunksAll R).length),
        lookupF G (numToName (1 + i))
          = some (.list ((chunksAll R).get ⟨i, h⟩))) ∧
      lookupF G zeroJson
        = some (.dict ⟨some (R.length : Int),
            some (MAX_QUOTES_PER_FILE : Int), none⟩) ∧
      (G.map Prod.fst).Nodup ∧
      (∀ p ∈ G, ¬(is_valid_file_name p.1 = true) →
        get_number p.1 true = .ok 0) ∧
      (∀ n, ¬(is_valid_file_name n = true) → n ≠ zeroJson →
        lookupF G n = lookupF fs0 n) ∧
      (∀ n, is_valid_file_name n = true →
        (∀ i, i < (chunksAll R).length → n ≠ numToName (1 + i)) →
        lookupF G n = none) ∧
      ((∀ p ∈ fs0, ∀ q ∈ asList p.2, ∀ f ∈ q, fix_item f = f) →
        ∀ q ∈ R, ∀ f ∈ q, fix_item f = f) := by
  -- names for the data of the run
  obtain ⟨FL, hFL⟩ : ∃ FL, FL
      = (sortNames (fs0.map Prod.fst)).filter is_valid_file_name := ⟨_, rfl⟩
  obtain ⟨d0, hd0e⟩ : ∃ d, d
      = asDict ((lookupF fs0 zeroJson).getD (.dict emptyDict)) := ⟨_, rfl⟩
  obtain ⟨files1, hf1⟩ : ∃ fl, fl
      = (if d0.items.isSome then zeroJson :: FL else FL) := ⟨_, rfl⟩
  obtain ⟨R, hR⟩ : ∃ R, R = (contentsOf fs0 files1).flatten := ⟨_, rfl⟩
  obtain ⟨T, hT⟩ : ∃ T, T
      = ((contentsOf fs0 files1).map List.length).sum := ⟨_, rfl⟩
  obtain ⟨F2, hF2⟩ : ∃ F, F = setF fs0 zeroJson (.dict d0) := ⟨_, rfl⟩
  obtain ⟨F3, hF3⟩ : ∃ F, F = eraseAllF F2 files1 := ⟨_, rfl⟩
  have hTR : T = R.length := by
    rw [hT, hR, List.length_flatten]
  -- name facts
  have hLnames : ∀ n ∈ sortNames (fs0.map Prod.fst),
      is_valid_file_name n = true ∨ get_number n true = .ok 0 :=
    fun n hn => hnames n (mem_sortNames.mp hn)
  have hnonew : lookupF fs0 newName = none := by
    apply lookupF_none_of_not_mem
    intro hmem
    rcases hnames newName hmem with hv | hz
    · exact (valid_ne_newName hv) rfl
    · exact (ok_zero_ne_newName hz) rfl
  -- enumeration at any flag combination
  have h_gf : ∀ (b1 b2 : Bool),
      get_files ⟨⟨b1, fs0, [], b2⟩, log0⟩
        = (.ok FL, ⟨⟨b1, fs0, [], b2⟩, log0⟩) := by
    intro b1 b2
    unfold get_files
    rw [M.bind_ok (M.getFS_apply _)]
    show enumGo (sortNames (fs0.map Prod.fst)) _ = _
    rw [enumGo_eval _ _ hLnames, hFL]
  -- the record view before the run
  have h_rv : recordsView ⟨⟨pe, fs0, [], hd0⟩, log0⟩
      = (.ok R, ⟨⟨pe, fs0, [], hd0⟩, log0⟩) := by
    unfold recordsView
    rw [M.bind_ok (h_gf pe hd0)]
    rw [M.bind_ok (openDict_eval zeroJson _)]
    show recordsList
        (if (asDict ((lookupF fs0 zeroJson).getD (.dict emptyDict))).items.isSome
          then zeroJson :: FL else FL) _ = _
    rw [← hd0e, ← hf1, recordsList_eval]
    show ((Except.ok ((contentsOf fs0 files1).flatten) : Except Err (List Record)), _)
      = ((Except.ok R : Except Err (List Record)), _)
    rw [hR]
  -- step 1: mkdir
  have h_mk : mkdirNew ⟨⟨pe, fs0, [], hd0⟩, log0⟩
      = (.ok (), ⟨⟨true, fs0, [], true⟩, log0⟩) := by
    unfold mkdirNew
    rw [M.bind_ok (M.getFS_apply _)]
    show (if (lookupF fs0 newName).isSome = true
        then (M.throw .fileExistsError : M Unit)
        else M.modFS (fun f => { f with pathExists := true, hasNewDir := true })) _
      = _
    rw [hnonew]
    rw [if_neg (by simp)]
    rfl
  -- step 2/3: enumeration and total
  have h_arg : get_total_files (some FL) ⟨⟨true, fs0, [], true⟩, log0⟩
      = (.ok FL, ⟨⟨true, fs0, [], true⟩, log0⟩) := by
    show (if FL = [] then get_files else pure FL) _ = _
    by_cases hFLnil : FL = []
    · rw [if_pos hFLnil]
      exact h_gf true true
    · rw [if_neg hFLnil]
      rfl
  have h_total : get_total (some FL) ⟨⟨true, fs0, [], true⟩, log0⟩
      = (.ok T, ⟨⟨true, fs0, [], true⟩, log0⟩) := by
    unfold get_total
    rw [M.bind_ok h_arg]
    rw [M.bind_ok (openDict_eval zeroJson _)]
    show sumLens
        (if (asDict ((lookupF fs0 zeroJson).getD (.dict emptyDict))).items.isSome
          then zeroJson :: FL else FL) _ = _
    rw [← hd0e, ← hf1, sumLens_eval]
    show ((Except.ok (((contentsOf fs0 files1).map List.length).sum) : Except Err Nat), _)
      = ((Except.ok T : Except Err Nat), _)
    rw [hT]
  -- step 4: header read and in-place rewrite
  have h_od : openDict zeroJson ⟨⟨true, fs0, [], true⟩, log0⟩
      = (.ok d0, ⟨⟨true, fs0, [], true⟩, log0⟩) := by
    rw [openDict_eval]
    show ((Except.ok (asDict ((lookupF fs0 zeroJson).getD (.dict emptyDict)))
        : Except Err HDict), _) = ((Except.ok d0 : Except Err HDict), _)
    rw [hd0e]
  have h_wf : writeFile zeroJson (.dict d0) ⟨⟨true, fs0, [], true⟩, log0⟩
      = (.ok (), ⟨⟨true, F2, [], true⟩, log0⟩) := by
    rw [writeFile_eval]
    show ((Except.ok () : Except Err Unit),
        (⟨⟨true, setF fs0 zeroJson (.dict d0), [], true⟩, log0⟩ : St)) = _
    rw [hF2]
  -- invariants of the processing list
  have hFLnodup : FL.Nodup := by
    rw [hFL]
    exact ((perm_sortNames (fs0.map Prod.fst)).nodup_iff.mpr hnodup).filter _
  have hzFL : zeroJson ∉ FL := by
    rw [hFL]
    intro hmem
    have hv := (List.mem_filter.mp hmem).2
    rw [zeroJson_not_valid] at hv
    exact absurd hv (by simp)
  have hnd1 : files1.Nodup := by
    rw [hf1]
    by_cases hs : d0.items.isSome
    · rw [if_pos hs]
      exact List.nodup_cons.mpr ⟨hzFL, hFLnodup⟩
    · rw [if_neg hs]
      exact hFLnodup
  have hmem1 : ∀ f ∈ files1, f = zeroJson ∨ is_valid_file_name f = true := by
    intro f hf
    rw [hf1] at hf
    by_cases hs : d0.items.isSome
    · rw [if_pos hs] at hf
      rcases List.mem_cons.mp hf with rfl | hf2
      · exact Or.inl rfl
      · rw [hFL] at hf2
        exact Or.inr (List.mem_filter.mp hf2).2
    · rw [if_neg hs] at hf
      rw [hFL] at hf
      exact Or.inr (List.mem_filter.mp hf).2
  have hcont : contentsOf F2 files1 = contentsOf fs0 files1 := by
    unfold contentsOf
    refine List.map_congr_left (fun f hf => ?_)
    by_cases hfz : f = zeroJson
    · subst hfz
      rw [hF2, lookupF_setF, if_pos rfl]
      show asList (.dict d0) = _
      rw [hd0e]
      exact asList_dict_asDict _
    · rw [hF2, lookupF_setF, if_neg (fun h => hfz h.symm)]
  -- step 5: the drain loop
  rcases drainGo_spec files1 [] 1 ⟨⟨true, F2, [], true⟩, log0⟩ hnd1 (by omega)
      (by
        intro i _ hm
        have hm2 : numToName i ∈ ([] : List (Str × JVal)).map Prod.fst := hm
        simp at hm2) with
    ⟨CD, stackD, h_dg0, h_flat0, h_szD⟩
  have h_dg : drainGo files1 [] 1 ⟨⟨true, F2, [], true⟩, log0⟩
      = (.ok (stackD, 1 + CD.length),
         ⟨⟨true, F3, shardEntriesFrom 1 CD, true⟩, log0⟩) := by
    rw [hF3]
    exact h_dg0
  have h_flat : CD.flatten ++ stackD = R := by
    rw [hR, ← hcont]
    have h2 : CD.flatten ++ stackD
        = [] ++ (contentsOf F2 files1).flatten := h_flat0
    rw [List.nil_append] at h2
    exact h2
  -- junk residue facts
  have hF2nd : (F2.map Prod.fst).Nodup := by
    rw [hF2]
    exact nodup_keys_setF fs0 zeroJson _ hnodup
  have hF3sub : F3 = F2.filter (fun p => !(decide (p.1 ∈ files1))) := by
    rw [hF3]
    exact eraseAllF_eq_filter files1 F2 hF2nd
  have h3nd : (F3.map Prod.fst).Nodup := by
    rw [hF3sub]
    exact List.Nodup.sublist ((List.filter_sublist F2).map Prod.fst) hF2nd
  have h3junk : ∀ p ∈ F3, get_number p.1 true = .ok 0 := by
    intro p hp
    rw [hF3sub] at hp
    have hmem := List.mem_filter.mp hp
    have hnot1 : p.1 ∈ files1 → False := by
      intro hmm
      have hb := hmem.2
      simp [hmm] at hb
    have hpF2 : p ∈ F2 := hmem.1
    rw [hF2] at hpF2
    rcases mem_setF hpF2 with hin | rfl
    · rcases hnames p.1 (List.mem_map_of_mem Prod.fst hin) with hv | hz
      · exfalso
        apply hnot1
        rw [hf1]
        have hFLmem : p.1 ∈ FL := by
          rw [hFL]
          exact List.mem_filter.mpr
            ⟨mem_sortNames.mpr (List.mem_map_of_mem Prod.fst hin), hv⟩
        by_cases hs : d0.items.isSome
        · rw [if_pos hs]
          exact List.mem_cons_of_mem _ hFLmem
        · rw [if_neg hs]
          exact hFLmem
      · exact hz
    · exact zeroJson_parse0
  -- step 6: the staged header
  have hzCD : zeroJson ∉ (shardEntriesFrom 1 CD).map Prod.fst := by
    rw [shardEntriesFrom_map_fst]
    exact zeroJson_not_mem_shardNamesFrom (by omega)
  have h_rnd : readNewDict zeroJson ⟨⟨true, F3, shardEntriesFrom 1 CD, true⟩, log0⟩
      = (.ok emptyDict, ⟨⟨true, F3, shardEntriesFrom 1 CD, true⟩, log0⟩) := by
    rw [readNewDict_eval]
    show ((Except.ok (asDict ((lookupF (shardEntriesFrom 1 CD) zeroJson).getD
        (.dict emptyDict))) : Except Err HDict), _)
      = ((Except.ok emptyDict : Except Err HDict), _)
    rw [lookupF_none_of_not_mem hzCD]
    rfl
  obtain ⟨NF2, hNF2⟩ : ∃ N, N
      = shardEntriesFrom 1 CD
        ++ [(zeroJson, JVal.dict ⟨some (T : Int),
              some (MAX_QUOTES_PER_FILE : Int), none⟩)] := ⟨_, rfl⟩
  have h_wn : writeNew zeroJson
      (.dict { emptyDict with total := some (T : Int), chunk_size := some (MAX_QUOTES_PER_FILE : Int) })
      ⟨⟨true, F3, shardEntriesFrom 1 CD, true⟩, log0⟩
      = (.ok (), ⟨⟨true, F3, NF2, true⟩, log0⟩) := by
    rw [writeNew_eval]
    show ((Except.ok () : Except Err Unit),
        (⟨⟨true, F3, setF (shardEntriesFrom 1 CD) zeroJson (.dict { emptyDict with total := some (T : Int), chunk_size := some (MAX_QUOTES_PER_FILE : Int) }), true⟩, log0⟩ : St)) = _
    rw [setF_append_of_not_mem hzCD, hNF2]
    rfl
  -- step 7: the flush loop
  have hfreshNF2 : ∀ i, 1 + CD.length ≤ i → numToName i ∉ NF2.map Prod.fst := by
    intro i hi hm
    rw [hNF2, List.map_append, shardEntriesFrom_map_fst] at hm
    rcases List.mem_append.mp hm with hm1 | hm2
    · rcases (mem_shardNamesFrom _ _ _).mp hm1 with ⟨j, hj, he⟩
      have hij := numToName_inj he
      omega
    · simp only [List.map_cons, List.map_nil, List.mem_singleton] at hm2
      have h0 : numToName i = numToName 0 := hm2
      have hi0 := numToName_inj h0
      omega
  rcases fillLoopAux_spec (stackD.length + 1) stackD (1 + CD.length)
      ⟨⟨true, F3, NF2, true⟩, log0⟩ (by omega) (by omega)
      (fun i hi hm => hfreshNF2 i hi hm) with
    ⟨Lf, stackE, h_flp0, h_flatF, h_szF, h_lenE⟩
  have h_flp : fillLoop (stackD, 1 + CD.length).1 (stackD, 1 + CD.length).2
      ⟨⟨true, F3, NF2, true⟩, log0⟩
      = (.ok (stackE, 1 + CD.length + Lf.length),
         ⟨⟨true, F3, NF2 ++ shardEntriesFrom (1 + CD.length) Lf, true⟩, log0⟩) := by
    show fillLoopAux (stackD.length + 1) stackD (1 + CD.length) _ = _
    exact h_flp0
  -- step 8: the final flush
  obtain ⟨CL, hCL⟩ : ∃ C, C
      = Lf ++ (if stackE = [] then [] else [stackE]) := ⟨_, rfl⟩
  have hfresh3 : numToName (1 + CD.length + Lf.length)
      ∉ (NF2 ++ shardEntriesFrom (1 + CD.length) Lf).map Prod.fst := by
    intro hm
    rw [List.map_append] at hm
    rcases List.mem_append.mp hm with hm1 | hm2
    · exact hfreshNF2 _ (by omega) hm1
    · rw [shardEntriesFrom_map_fst] at hm2
      rcases (mem_shardNamesFrom _ _ _).mp hm2 with ⟨j, hj, he⟩
      have hij := numToName_inj he
      omega
  obtain ⟨res, h_ffe⟩ : ∃ res : List Record × Nat × Bool,
      fill_file (stackE, 1 + CD.length + Lf.length).1
        (stackE, 1 + CD.length + Lf.length).2 true
        ⟨⟨true, F3, NF2 ++ shardEntriesFrom (1 + CD.length) Lf, true⟩, log0⟩
      = (.ok res,
         ⟨⟨true, F3, NF2 ++ shardEntriesFrom (1 + CD.length) CL, true⟩, log0⟩) := by
    by_cases hE : stackE = []
    · refine ⟨(stackE, 1 + CD.length + Lf.length, false), ?_⟩
      show fill_file stackE (1 + CD.length + Lf.length) true _ = _
      rw [fill_file_eval, if_neg (by
        rintro ⟨hne, _⟩
        exact hne hE)]
      rw [hCL, if_pos hE, List.append_nil]
    · refine ⟨(stackE.drop MAX_QUOTES_PER_FILE,
        1 + CD.length + Lf.length + 1, true), ?_⟩
      show fill_file stackE (1 + CD.length + Lf.length) true _ = _
      rw [fill_file_eval, if_pos ⟨hE, Or.inl rfl⟩]
      show ((Except.ok (stackE.drop MAX_QUOTES_PER_FILE,
          1 + CD.length + Lf.length + 1, true)
            : Except Err (List Record × Nat × Bool)),
        (⟨⟨true, F3, setF (NF2 ++ shardEntriesFrom (1 + CD.length) Lf)
            (numToName (1 + CD.length + Lf.length))
            (.list (stackE.take MAX_QUOTES_PER_FILE)), true⟩, log0⟩ : St)) = _
      rw [setF_append_of_not_mem hfresh3, List.take_of_length_le h_lenE,
        hCL, if_neg hE, shardEntriesFrom_append, ← List.append_assoc]
      rfl
  -- step 9: the rename loop
  obtain ⟨G, hG0⟩ : ∃ G, G = (NF2 ++ shardEntriesFrom (1 + CD.length) CL).foldl
      (fun acc p => setF acc p.1 p.2) F3 := ⟨_, rfl⟩
  have h_rn : renameAll
      ⟨⟨true, F3, NF2 ++ shardEntriesFrom (1 + CD.length) CL, true⟩, log0⟩
      = (.ok (), ⟨⟨true, G, [], false⟩, log0⟩) := by
    rw [renameAll_eval]
    show ((Except.ok () : Except Err Unit),
      (⟨⟨true, (NF2 ++ shardEntriesFrom (1 + CD.length) CL).foldl
          (fun acc p => setF acc p.1 p.2) F3, [], false⟩, log0⟩ : St)) = _
    rw [hG0]
  -- the whole walk
  have h_fix : fix ⟨⟨pe, fs0, [], hd0⟩, log0⟩
      = (.ok (), ⟨⟨true, G, [], false⟩, log0⟩) := by
    unfold fix
    rw [M.bind_ok h_mk]
    rw [M.bind_ok (h_gf true true)]
    rw [M.bind_ok h_total]
    rw [M.bind_ok h_od]
    rw [M.bind_ok h_wf]
    rw [← hf1]
    rw [M.bind_ok h_dg]
    rw [M.bind_ok h_rnd]
    rw [M.bind_ok h_wn]
    rw [M.bind_ok h_flp]
    rw [M.bind_ok h_ffe]
    exact h_rn
  -- the flushed chunks are the canonical chunking
  have hchunks : chunksAll R = CD ++ CL := by
    have hsz : ∀ c ∈ CD ++ Lf, c.length = MAX_QUOTES_PER_FILE := by
      intro c hc
      rcases List.mem_append.mp hc with h | h
      · exact h_szD c h
      · exact h_szF c h
    have hR2 : R = (CD ++ Lf).flatten ++ stackE := by
      rw [List.flatten_append, List.append_assoc, h_flatF, h_flat]
    rw [hR2, chunksAll_assemble (CD ++ Lf) stackE hsz h_lenE, hCL,
      List.append_assoc]
  -- the final listing
  have hGdef : G = ((shardEntriesFrom 1 CD
      ++ ([(zeroJson, JVal.dict ⟨some (T : Int),
            some (MAX_QUOTES_PER_FILE : Int), none⟩)]
        ++ shardEntriesFrom (1 + CD.length) CL)).foldl
      (fun acc p => setF acc p.1 p.2) F3) := by
    rw [hG0, hNF2, List.append_assoc]
  rcases renamed_files_spec F3 CD CL
      (JVal.dict ⟨some (T : Int), some (MAX_QUOTES_PER_FILE : Int), none⟩)
      h3nd h3junk G hGdef with ⟨K1, K2, K3, K4, K5, K6, K7⟩
  refine ⟨R, G, ?_, h_fix, ?_, ?_, ?_, K4, K5, ?_, ?_, ?_⟩
  · rw [h_rv]
  · rw [hchunks]
    exact K1
  · rw [hchunks]
    exact K2
  · rw [← hTR]
    exact K3
  · intro n hnv hnz
    rw [K6 n hnv hnz]
    have hn1 : n ∉ files1 := by
      intro hmm
      rcases hmem1 n hmm with rfl | hv
      · exact hnz rfl
      · exact hnv hv
    rw [hF3, lookupF_eraseAllF files1 F2 n hn1, hF2, lookupF_setF,
      if_neg (fun h => hnz h.symm)]
  · rw [hchunks]
    exact K7
  · intro hnorm q hq f hf
    rw [hR] at hq
    exact contentsOf_normalized fs0 files1 hnorm q hq f hf

/-! ### Reading and checking the canonical folder left by `fix` -/

/-- Sorting a listing whose valid names are already in ascending shard
order keeps its valid-name filter unchanged. -/
theorem canonical_sort {G : List (Str × JVal)} {C : List (List Record)}
    (hK1 : (G.map Prod.fst).filter is_valid_file_name
      = shardNamesFrom 1 C.length) :
    (sortNames (G.map Prod.fst)).filter is_valid_file_name
      = shardNamesFrom 1 C.length := by
  have hp : ((G.map Prod.fst).filter is_valid_file_name).Pairwise
      (fun a b => keyOf a < keyOf b) := by
    rw [hK1]
    exact shardNamesFrom_pairwise _ _ (by omega)
  rw [sortNames_partition _ hp, List.filter_append]
  rw [List.filter_eq_nil_iff.mpr (by
    intro a ha
    have hb := (List.mem_filter.mp ha).2
    simp at hb
    simp [hb])]
  rw [List.nil_append,
    List.filter_eq_self.mpr (fun a ha => (List.mem_filter.mp ha).2), hK1]

/-- All names of a canonical folder enumerate without error. -/
theorem canonical_names {G : List (Str × JVal)}
    (hK5 : ∀ p ∈ G, ¬(is_valid_file_name p.1 = true) →
      get_number p.1 true = .ok 0) :
    ∀ n ∈ sortNames (G.map Prod.fst),
      is_valid_file_name n = true ∨ get_number n true = .ok 0 := by
  intro n hn
  rcases List.mem_map.mp (mem_sortNames.mp hn) with ⟨p, hp, rfl⟩
  by_cases hv : is_valid_file_name p.1 = true
  · exact Or.inl hv
  · exact Or.inr (hK5 p hp hv)

/-- Enumeration of a canonical folder lists exactly the data shards. -/
theorem get_files_canonical (b1 b2 : Bool) (G : List (Str × JVal))
    (log : List Warn) (C : List (List Record))
    (hK1 : (G.map Prod.fst).filter is_valid_file_name
      = shardNamesFrom 1 C.length)
    (hK5 : ∀ p ∈ G, ¬(is_valid_file_name p.1 = true) →
      get_number p.1 true = .ok 0) :
    get_files ⟨⟨b1, G, [], b2⟩, log⟩
      = (.ok (shardNamesFrom 1 C.length), ⟨⟨b1, G, [], b2⟩, log⟩) := by
  unfold get_files
  rw [M.bind_ok (M.getFS_apply _)]
  show enumGo (sortNames (G.map Prod.fst)) _ = _
  rw [enumGo_eval _ _ (canonical_names hK5), canonical_sort hK1]

/-- The shard payloads of a canonical folder read back as the chunks. -/
theorem contentsOf_shards :
    ∀ (C : List (List Record)) (k : Nat) (G : List (Str × JVal)),
      (∀ (i : Nat) (h : i < C.length),
        lookupF G (numToName (k + i)) = some (.list (C.get ⟨i, h⟩))) →
      contentsOf G (shardNamesFrom k C.length) = C := by
  intro C
  induction C with
  | nil => intro k G _; rfl
  | cons c C ih =>
    intro k G hL
    show asList ((lookupF G (numToName k)).getD (.dict emptyDict))
        :: contentsOf G (shardNamesFrom (k + 1) C.length) = c :: C
    have h0 := hL 0 (by simp)
    rw [Nat.add_zero] at h0
    have h1 : asList ((lookupF G (numToName k)).getD (.dict emptyDict)) = c := by
      rw [h0]
      rfl
    have h2 : contentsOf G (shardNamesFrom (k + 1) C.length) = C := by
      refine ih (k + 1) G (fun i hi => ?_)
      have hres := hL (i + 1) (by rw [List.length_cons]; omega)
      have hadd : k + (i + 1) = k + 1 + i := by omega
      rw [hadd] at hres
      exact hres
    rw [h1, h2]

/-- The record view of a canonical folder is the flattened chunking. -/
theorem recordsView_canonical (b1 b2 : Bool) (G : List (Str × JVal))
    (log : List Warn) (C : List (List Record)) (t cs : Int)
    (hK1 : (G.map Prod.fst).filter is_valid_file_name
      = shardNamesFrom 1 C.length)
    (hK2 : ∀ (i : Nat) (h : i < C.length),
      lookupF G (numToName (1 + i)) = some (.list (C.get ⟨i, h⟩)))
    (hK3 : lookupF G zeroJson = some (.dict ⟨some t, some cs, none⟩))
    (hK5 : ∀ p ∈ G, ¬(is_valid_file_name p.1 = true) →
      get_number p.1 true = .ok 0) :
    recordsView ⟨⟨b1, G, [], b2⟩, log⟩
      = (.ok C.flatten, ⟨⟨b1, G, [], b2⟩, log⟩) := by
  unfold recordsView
  rw [M.bind_ok (get_files_canonical b1 b2 G log C hK1 hK5)]
  rw [M.bind_ok (openDict_eval zeroJson _)]
  show recordsList
      (if (asDict ((lookupF G zeroJson).getD (.dict emptyDict))).items.isSome
        then zeroJson :: shardNamesFrom 1 C.length
        else shardNamesFrom 1 C.length) _ = _
  rw [hK3]
  have hcond : (asDict ((some (JVal.dict ⟨some t, some cs, none⟩)
      : Option JVal).getD (.dict emptyDict))).items.isSome = false := rfl
  rw [hcond, if_neg (by simp), recordsList_eval]
  show ((Except.ok ((contentsOf G (shardNamesFrom 1 C.length)).flatten)
      : Except Err (List Record)), _)
    = ((Except.ok C.flatten : Except Err (List Record)), _)
  rw [contentsOf_shards C 1 G hK2]

/-- A record all of whose fields are normalized passes the per-item scan
silently. -/
theorem checkQuote_normalized :
    ∀ (q : Record) (st : St), (∀ f ∈ q, fix_item f = f) →
      checkQuote q st = (.ok (), st) := by
  intro q
  induction q with
  | nil => intro st _; rfl
  | cons it rest ih =>
    intro st hn
    show ((if fix_item it ≠ it then M.warn (.nonAsciiItem it) else pure ())
        >>= fun _ => checkQuote rest) st = _
    have h0 : (if fix_item it ≠ it then M.warn (.nonAsciiItem it)
        else (pure () : M Unit)) st = (.ok (), st) := by
      rw [if_neg (fun hne => hne (hn it (List.mem_cons_self it rest)))]
      rfl
    rw [M.bind_ok h0]
    exact ih st (fun f hf => hn f (List.mem_cons_of_mem it hf))

theorem checkItems_normalized :
    ∀ (L : List Record) (st : St), (∀ q ∈ L, ∀ f ∈ q, fix_item f = f) →
      checkItems L st = (.ok (), st) := by
  intro L
  induction L with
  | nil => intro st _; rfl
  | cons q rest ih =>
    intro st hn
    show (checkQuote q >>= fun _ => checkItems rest) st = _
    rw [M.bind_ok (checkQuote_normalized q st (hn q (List.mem_cons_self q rest)))]
    exact ih st (fun r hr => hn r (List.mem_cons_of_mem q hr))

/-- A well-sized, normalized list shard passes `check_file` silently. -/
theorem check_file_canonical (name : Str) (last : Bool) (c : List Record)
    (st : St)
    (hlook : lookupF st.fs.files name = some (.list c))
    (hle : c.length ≤ MAX_QUOTES_PER_FILE)
    (hlast : last = false → c.length = MAX_QUOTES_PER_FILE)
    (hnorm : ∀ q ∈ c, ∀ f ∈ q, fix_item f = f) :
    check_file name last st = (.ok (), st) := by
  unfold check_file
  rw [M.bind_ok (readFile_eval name st)]
  rw [hlook]
  have h_ns : normalizeShard name
      ((some (JVal.list c) : Option JVal).getD (.dict emptyDict)) st
      = (.ok c, st) := rfl
  rw [M.bind_ok h_ns]
  have h_cc : checkCount (get_items (.list c)).length last st = (.ok (), st) := by
    show checkCount c.length last st = _
    unfold checkCount
    have hncond : ¬(c.length > MAX_QUOTES_PER_FILE
        ∨ (last = false ∧ c.length < MAX_QUOTES_PER_FILE)) := by
      rintro (h1 | ⟨h2, h3⟩)
      · omega
      · have h4 := hlast h2
        omega
    rw [if_neg hncond]
    rfl
  rw [M.bind_ok h_cc]
  show checkItems c st = _
  exact checkItems_normalized c st hnorm

/-- A run of shards holding the canonical chunks passes `check_file` for
every file, with the final-file flag handled. -/
theorem checkFiles_canonical :
    ∀ (C : List (List Record)) (k : Nat) (st : St), 1 ≤ k →
      (∀ (i : Nat) (h : i < C.length),
        lookupF st.fs.files (numToName (k + i)) = some (.list (C.get ⟨i, h⟩))) →
      (∀ c ∈ C, c.length ≤ MAX_QUOTES_PER_FILE) →
      (∀ c ∈ C.dropLast, c.length = MAX_QUOTES_PER_FILE) →
      (∀ c ∈ C, ∀ q ∈ c, ∀ f ∈ q, fix_item f = f) →
      checkFiles (shardNamesFrom k C.length) st = (.ok (), st) := by
  intro C
  induction C with
  | nil => intro k st _ _ _ _ _; rfl
  | cons c C ih =>
    intro k st hk hL hle hfull hnorm
    have h0 := hL 0 (by simp)
    rw [Nat.add_zero] at h0
    cases C with
    | nil =>
      show check_file (numToName k) true st = _
      exact check_file_canonical (numToName k) true c st h0
        (hle c (List.mem_cons_self c []))
        (by intro hf; exact absurd hf (by simp))
        (hnorm c (List.mem_cons_self c []))
    | cons c2 C2 =>
      show (check_file (numToName k) false
          >>= fun _ => checkFiles (shardNamesFrom (k + 1) (c2 :: C2).length)) st = _
      have hcfull : c.length = MAX_QUOTES_PER_FILE := by
        refine hfull c ?_
        rw [List.dropLast_cons_of_ne_nil (by simp)]
        exact List.mem_cons_self c _
      rw [M.bind_ok (check_file_canonical (numToName k) false c st h0
        (hle c (List.mem_cons_self c _)) (fun _ => hcfull)
        (hnorm c (List.mem_cons_self c _)))]
      refine ih (k + 1) st (by omega) ?_ ?_ ?_ ?_
      · intro i hi
        have hres := hL (i + 1) (by rw [List.length_cons]; omega)
        have hadd : k + (i + 1) = k + 1 + i := by omega
        rw [hadd] at hres
        exact hres
      · intro d hd
        exact hle d (List.mem_cons_of_mem c hd)
      · intro d hd
        refine hfull d ?_
        rw [List.dropLast_cons_of_ne_nil (by simp)]
        exact List.mem_cons_of_mem c hd
      · intro d hd
        exact hnorm d (List.mem_cons_of_mem c hd)

/-- `check` on the canonical folder left by `fix`: every step passes
silently — the enumeration parses, the totals agree, the header holds no
inline items, every shard is well-sized, and every field is normalized. -/
theorem check_canonical (b2 : Bool) (G : List (Str × JVal)) (log : List Warn)
    (C : List (List Record)) (cs : Int)
    (hK1 : (G.map Prod.fst).filter is_valid_file_name
      = shardNamesFrom 1 C.length)
    (hK2 : ∀ (i : Nat) (h : i < C.length),
      lookupF G (numToName (1 + i)) = some (.list (C.get ⟨i, h⟩)))
    (hK3 : lookupF G zeroJson
      = some (.dict ⟨some (C.flatten.length : Int), some cs, none⟩))
    (hK5 : ∀ p ∈ G, ¬(is_valid_file_name p.1 = true) →
      get_number p.1 true = .ok 0)
    (hsz1 : ∀ c ∈ C, c.length ≤ MAX_QUOTES_PER_FILE)
    (hsz2 : ∀ c ∈ C.dropLast, c.length = MAX_QUOTES_PER_FILE)
    (hnormC : ∀ c ∈ C, ∀ q ∈ c, ∀ f ∈ q, fix_item f = f) :
    check ⟨⟨true, G, [], b2⟩, log⟩ = (.ok (), ⟨⟨true, G, [], b2⟩, log⟩) := by
  have h_argc : get_total_files (some (shardNamesFrom 1 C.length))
      ⟨⟨true, G, [], b2⟩, log⟩
      = (.ok (shardNamesFrom 1 C.length), ⟨⟨true, G, [], b2⟩, log⟩) := by
    show (if shardNamesFrom 1 C.length = [] then get_files
        else pure (shardNamesFrom 1 C.length)) _ = _
    by_cases hnil : shardNamesFrom 1 C.length = []
    · rw [if_pos hnil]
      exact get_files_canonical true b2 G log C hK1 hK5
    · rw [if_neg hnil]
      rfl
  have h_totc : get_total (some (shardNamesFrom 1 C.length))
      ⟨⟨true, G, [], b2⟩, log⟩
      = (.ok ((C.map List.length).sum), ⟨⟨true, G, [], b2⟩, log⟩) := by
    unfold get_total
    rw [M.bind_ok h_argc, M.bind_ok (openDict_eval zeroJson _)]
    show sumLens
        (if (asDict ((lookupF G zeroJson).getD (.dict emptyDict))).items.isSome
          then zeroJson :: shardNamesFrom 1 C.length
          else shardNamesFrom 1 C.length) _ = _
    rw [hK3]
    have hcond : (asDict ((some (JVal.dict ⟨some (C.flatten.length : Int),
        some cs, none⟩) : Option JVal).getD (.dict emptyDict))).items.isSome
        = false := rfl
    rw [hcond, if_neg (by simp), sumLens_eval]
    show ((Except.ok ((contentsOf G (shardNamesFrom 1 C.length)).map
        List.length).sum : Except Err Nat), _)
      = ((Except.ok ((C.map List.length).sum) : Except Err Nat), _)
    rw [contentsOf_shards C 1 G hK2]
  unfold check
  rw [M.bind_ok (M.getFS_apply _)]
  rw [show (⟨⟨true, G, [], b2⟩, log⟩ : St).fs.pathExists = true from rfl,
    if_neg (by simp)]
  rw [M.bind_ok (get_files_canonical true b2 G log C hK1 hK5)]
  rw [M.bind_ok h_totc]
  rw [M.bind_ok (readFile_eval zeroJson _)]
  have h_nh : normalizeHeader
      ((lookupF (⟨⟨true, G, [], b2⟩, log⟩ : St).fs.files zeroJson).getD
        (.dict emptyDict)) ⟨⟨true, G, [], b2⟩, log⟩
      = (.ok ⟨some (C.flatten.length : Int), some cs, none⟩,
         ⟨⟨true, G, [], b2⟩, log⟩) := by
    show normalizeHeader ((lookupF G zeroJson).getD (.dict emptyDict)) _ = _
    rw [hK3]
    rfl
  rw [M.bind_ok h_nh]
  have h_ct : checkTotal
      (HDict.mk (some (C.flatten.length : Int)) (some cs) none).total
      ((C.map List.length).sum) ⟨⟨true, G, [], b2⟩, log⟩
      = (.ok (), ⟨⟨true, G, [], b2⟩, log⟩) := by
    show checkTotal (some (C.flatten.length : Int)) ((C.map List.length).sum) _ = _
    unfold checkTotal
    have heq : ((some (C.flatten.length : Int)).getD 0)
        = (((C.map List.length).sum : Nat) : Int) := by
      show ((C.flatten.length : Nat) : Int) = _
      rw [List.length_flatten]
    rw [if_neg (fun hne => hne heq)]
    rfl
  rw [M.bind_ok h_ct]
  have h_cif : checkItemsFlag
      (HDict.mk (some (C.flatten.length : Int)) (some cs) none).items
      ⟨⟨true, G, [], b2⟩, log⟩
      = (.ok (), ⟨⟨true, G, [], b2⟩, log⟩) := rfl
  rw [M.bind_ok h_cif]
  exact checkFiles_canonical C 1 ⟨⟨true, G, [], b2⟩, log⟩ (by omega)
    (fun i hi => hK2 i hi) hsz1 hsz2 hnormC

/-! ### The amended claims about `fix` -/

/-- C4: after `fix` completes on a folder whose staging directory is empty
(and whose directory listing has no duplicate names), the data shards are
exactly `1.json … m.json`; every shard holds at most
`MAX_QUOTES_PER_FILE` records, and every shard except the one with the
highest index holds exactly `MAX_QUOTES_PER_FILE`. -/
theorem fix_shard_sizing (pe hd0 : Bool) (fs0 : List (Str × JVal))
    (log0 : List Warn)
    (hnodup : (fs0.map Prod.fst).Nodup)
    (hnames : ∀ n ∈ fs0.map Prod.fst,
      is_valid_file_name n = true ∨ get_number n true = .ok 0) :
    ∃ (G : List (Str × JVal)) (m : Nat),
      fix ⟨⟨pe, fs0, [], hd0⟩, log0⟩ = (.ok (), ⟨⟨true, G, [], false⟩, log0⟩) ∧
      (G.map Prod.fst).filter is_valid_file_name = shardNamesFrom 1 m ∧
      ∀ (i : Nat), i < m →
        ∃ c : List Record,
          lookupF G (numToName (1 + i)) = some (.list c) ∧
          c.length ≤ MAX_QUOTES_PER_FILE ∧
          (i + 1 < m → c.length = MAX_QUOTES_PER_FILE) := by
  rcases fix_eval pe hd0 fs0 log0 hnodup hnames with
    ⟨R, G, _, hfix, hK1, hK2, _, _, _, _, _, _⟩
  refine ⟨G, (chunksAll R).length, hfix, hK1, ?_⟩
  intro i hi
  refine ⟨(chunksAll R).get ⟨i, hi⟩, hK2 i hi, ?_, ?_⟩
  · exact ((chunksAll_sizes R.length R (le_refl _)).1 _ (List.get_mem _ _ _)).2
  · intro hlt
    refine (chunksAll_sizes R.length R (le_refl _)).2 _ ?_
    have hlen : i < (chunksAll R).dropLast.length := by
      rw [List.length_dropLast]
      omega
    have hgd : (chunksAll R).dropLast.get ⟨i, hlen⟩
        = (chunksAll R).get ⟨i, hi⟩ := by
      simp [List.getElem_dropLast]
    rw [← hgd]
    exact List.get_mem _ _ _

theorem fix_shard_sizing_witness :
    ∃ (G : List (Str × JVal)) (m : Nat),
      fix ⟨⟨true, [(numToName 1, JVal.list [[['a']]])], [], false⟩, []⟩
        = (.ok (), ⟨⟨true, G, [], false⟩, []⟩) ∧
      (G.map Prod.fst).filter is_valid_file_name = shardNamesFrom 1 m ∧
      ∀ (i : Nat), i < m →
        ∃ c : List Record,
          lookupF G (numToName (1 + i)) = some (.list c) ∧
          c.length ≤ MAX_QUOTES_PER_FILE ∧
          (i + 1 < m → c.length = MAX_QUOTES_PER_FILE) :=
  fix_shard_sizing true false [(numToName 1, JVal.list [[['a']]])] []
    (by decide)
    (by
      intro n hn
      have h2 : n ∈ [numToName 1] := hn
      rcases List.mem_singleton.mp h2 with rfl
      exact Or.inl (by decide))

/-- C5: on a folder whose staging directory is empty (and whose listing
has no duplicate names), the record sequence read in ascending shard-index
order (header items first) is the same before and after a run of `fix`. -/
theorem fix_preserves_records (pe hd0 : Bool) (fs0 : List (Str × JVal))
    (log0 : List Warn)
    (hnodup : (fs0.map Prod.fst).Nodup)
    (hnames : ∀ n ∈ fs0.map Prod.fst,
      is_valid_file_name n = true ∨ get_number n true = .ok 0) :
    ∃ (R : List Record) (st2 : St),
      (recordsView ⟨⟨pe, fs0, [], hd0⟩, log0⟩).1 = .ok R ∧
      fix ⟨⟨pe, fs0, [], hd0⟩, log0⟩ = (.ok (), st2) ∧
      (recordsView st2).1 = .ok R := by
  rcases fix_eval pe hd0 fs0 log0 hnodup hnames with
    ⟨R, G, hrv, hfix, hK1, hK2, hK3, hK4, hK5, _, _, _⟩
  refine ⟨R, ⟨⟨true, G, [], false⟩, log0⟩, hrv, hfix, ?_⟩
  rw [recordsView_canonical true false G log0 (chunksAll R) (R.length : Int)
    (MAX_QUOTES_PER_FILE : Int) hK1 hK2 hK3 hK5,
    chunksAll_flatten R.length R (le_refl _)]

theorem fix_preserves_records_witness :
    ∃ (R : List Record) (st2 : St),
      (recordsView ⟨⟨true, [(numToName 1, JVal.list [[['a']]])], [], false⟩,
        []⟩).1 = .ok R ∧
      fix ⟨⟨true, [(numToName 1, JVal.list [[['a']]])], [], false⟩, []⟩
        = (.ok (), st2) ∧
      (recordsView st2).1 = .ok R :=
  fix_preserves_records true false [(numToName 1, JVal.list [[['a']]])] []
    (by decide)
    (by
      intro n hn
      have h2 : n ∈ [numToName 1] := hn
      rcases List.mem_singleton.mp h2 with rfl
      exact Or.inl (by decide))

/-- C6: running `fix` twice in a row on a folder whose staging directory
is empty at the first run (and whose listing has no duplicate names) is
idempotent: the second run succeeds and leaves every file
content-identical, the staging area, the directory flags and the warning
log unchanged. -/
theorem fix_idempotent (pe hd0 : Bool) (fs0 : List (Str × JVal))
    (log0 : List Warn)
    (hnodup : (fs0.map Prod.fst).Nodup)
    (hnames : ∀ n ∈ fs0.map Prod.fst,
      is_valid_file_name n = true ∨ get_number n true = .ok 0) :
    ∃ (st1 st2 : St),
      fix ⟨⟨pe, fs0, [], hd0⟩, log0⟩ = (.ok (), st1) ∧
      fix st1 = (.ok (), st2) ∧
      st2.fs.pathExists = st1.fs.pathExists ∧
      (∀ n, lookupF st2.fs.files n = lookupF st1.fs.files n) ∧
      st2.fs.newFiles = st1.fs.newFiles ∧
      st2.fs.hasNewDir = st1.fs.hasNewDir ∧
      st2.log = st1.log := by
  rcases fix_eval pe hd0 fs0 log0 hnodup hnames with
    ⟨R, G, _, hfix, hK1, hK2, hK3, hK4, hK5, _, hK7, _⟩
  have hnames2 : ∀ n ∈ G.map Prod.fst,
      is_valid_file_name n = true ∨ get_number n true = .ok 0 := by
    intro n hn
    rcases List.mem_map.mp hn with ⟨p, hp, rfl⟩
    by_cases hv : is_valid_file_name p.1 = true
    · exact Or.inl hv
    · exact Or.inr (hK5 p hp hv)
  rcases fix_eval true false G log0 hK4 hnames2 with
    ⟨R2, G2, hrv2, hfix2, hL1, hL2, hL3, _, _, hL6, hL7, _⟩
  have hrvG : recordsView ⟨⟨true, G, [], false⟩, log0⟩
      = (.ok R, ⟨⟨true, G, [], false⟩, log0⟩) := by
    rw [recordsView_canonical true false G log0 (chunksAll R) (R.length : Int)
      (MAX_QUOTES_PER_FILE : Int) hK1 hK2 hK3 hK5,
      chunksAll_flatten R.length R (le_refl _)]
  have hR2R : R2 = R := by
    have h1 := hrv2
    rw [hrvG] at h1
    have h2 : (Except.ok R : Except Err (List Record)) = .ok R2 := h1
    injection h2 with h3
    exact h3.symm
  subst hR2R
  refine ⟨⟨⟨true, G, [], false⟩, log0⟩, ⟨⟨true, G2, [], false⟩, log0⟩,
    hfix, hfix2, rfl, ?_, rfl, rfl, rfl⟩
  intro n
  show lookupF G2 n = lookupF G n
  by_cases hv : is_valid_file_name n = true
  · by_cases hex : ∃ i, i < (chunksAll R2).length ∧ n = numToName (1 + i)
    · rcases hex with ⟨i, hi, rfl⟩
      rw [hL2 i hi, hK2 i hi]
    · push_neg at hex
      rw [hL7 n hv (fun i hi => hex i hi), hK7 n hv (fun i hi => hex i hi)]
  · by_cases hz : n = zeroJson
    · subst hz
      rw [hL3, hK3]
    · rw [hL6 n hv hz]

theorem fix_idempotent_witness :
    ∃ (st1 st2 : St),
      fix ⟨⟨true, [(numToName 1, JVal.list [[['a']]])], [], false⟩, []⟩
        = (.ok (), st1) ∧
      fix st1 = (.ok (), st2) ∧
      st2.fs.pathExists = st1.fs.pathExists ∧
      (∀ n, lookupF st2.fs.files n = lookupF st1.fs.files n) ∧
      st2.fs.newFiles = st1.fs.newFiles ∧
      st2.fs.hasNewDir = st1.fs.hasNewDir ∧
      st2.log = st1.log :=
  fix_idempotent true false [(numToName 1, JVal.list [[['a']]])] []
    (by decide)
    (by
      intro n hn
      have h2 : n ∈ [numToName 1] := hn
      rcases List.mem_singleton.mp h2 with rfl
      exact Or.inl (by decide))

/-- C1: after `fix` completes on a folder whose staging directory is empty,
whose listing has no duplicate names, and all of whose record fields are
already `fix_item`-normalized, a subsequent `check` succeeds and emits
zero warnings (the state, including the warning log, is unchanged). -/
theorem check_after_fix_no_warnings (pe hd0 : Bool) (fs0 : List (Str × JVal))
    (log0 : List Warn)
    (hnodup : (fs0.map Prod.fst).Nodup)
    (hnames : ∀ n ∈ fs0.map Prod.fst,
      is_valid_file_name n = true ∨ get_number n true = .ok 0)
    (hnorm : ∀ p ∈ fs0, ∀ q ∈ asList p.2, ∀ f ∈ q, fix_item f = f) :
    ∃ st1 : St,
      fix ⟨⟨pe, fs0, [], hd0⟩, log0⟩ = (.ok (), st1) ∧
      check st1 = (.ok (), st1) := by
  rcases fix_eval pe hd0 fs0 log0 hnodup hnames with
    ⟨R, G, _, hfix, hK1, hK2, hK3, hK4, hK5, _, _, hnth⟩
  have hRn := hnth hnorm
  refine ⟨⟨⟨true, G, [], false⟩, log0⟩, hfix, ?_⟩
  have hflat : (chunksAll R).flatten = R :=
    chunksAll_flatten R.length R (le_refl _)
  refine check_canonical false G log0 (chunksAll R) (MAX_QUOTES_PER_FILE : Int)
    hK1 hK2 ?_ hK5 ?_ ?_ ?_
  · rw [hflat]
    exact hK3
  · intro c hc
    exact ((chunksAll_sizes R.length R (le_refl _)).1 c hc).2
  · exact (chunksAll_sizes R.length R (le_refl _)).2
  · intro c hc q hq f hf
    refine hRn q ?_ f hf
    rw [← hflat]
    exact List.mem_flatten.mpr ⟨c, hc, hq⟩

theorem check_after_fix_no_warnings_witness :
    ∃ st1 : St,
      fix ⟨⟨true, [(numToName 1, JVal.list [[['a']]])], [], false⟩, []⟩
        = (.ok (), st1) ∧
      check st1 = (.ok (), st1) :=
  check_after_fix_no_warnings true false [(numToName 1, JVal.list [[['a']]])]
    []
    (by decide)
    (by
      intro n hn
      have h2 : n ∈ [numToName 1] := hn
      rcases List.mem_singleton.mp h2 with rfl
      exact Or.inl (by decide))
    (by decide)

end Quotes
